import Mathlib

/-!
# Vesting accounts: a shallow embedding

This file embeds the vesting-account engine of the repository (package
`auth`: `BaseAccount`, `BaseVestingAccount`, `ContinuousVestingAccount`,
`GetVestedCoins`, `GetVestingCoins`, `SpendableCoins`, `TrackDelegation`,
`TrackUndelegation`) in Lean 4, together with the coin-arithmetic and
decimal layers those functions call (`sdk.Coins`, `sdk.Dec`), and proves
or refutes the specification's claims about them.

Conventions:
* machine integers (`sdk.Int` is a big integer, `time.Time` enters only
  through `.Unix()`) are modelled as `ℤ`;
* fallible operations return `Except ArithErr _`; a mutating method that
  can fail mid-way returns `Except (ArithErr × Account) Account` so the
  partially updated receiver at the failure point is observable, exactly
  as a recovered Go panic leaves the pointer receiver;
* Go value receivers cannot mutate the caller's value; the `...Call`
  wrappers make that state-threading explicit.
-/

namespace Vesting

/-- Arithmetic failure kinds of the coin/decimal layer (spec §7):
`negativeResult` for a coin subtraction that would drop below zero,
`divByZero` for a decimal quotient by zero (a Go `big.Int` division
panic). -/
inductive ArithErr where
  | negativeResult
  | divByZero
deriving DecidableEq, Repr

/-- Equality on fallible results is decidable, so concrete runs of the
engine can be checked by evaluation. -/
instance exceptDecEq {e a : Type} [DecidableEq e] [DecidableEq a] :
    DecidableEq (Except e a)
  | .error x, .error y =>
    if h : x = y then .isTrue (by rw [h])
    else .isFalse (by intro hc; cases hc; exact h rfl)
  | .error _, .ok _ => .isFalse (fun hc => Except.noConfusion hc)
  | .ok _, .error _ => .isFalse (fun hc => Except.noConfusion hc)
  | .ok x, .ok y =>
    if h : x = y then .isTrue (by rw [h])
    else .isFalse (by intro hc; cases hc; exact h rfl)

/-- A single coin: a denomination and a (big-integer) amount.
Modelled from the spec: §3.1 defines `Coin = (denom, amount)`; the
amount is carried as `ℤ` so that values outside the normal form
(negative results of unclamped arithmetic) remain representable. -/
structure Coin where
  denom : String
  amount : ℤ
deriving DecidableEq, Repr

/-- `sdk.Coins`: a list of coins; valid values are sorted by denom with
strictly positive amounts (spec §3.1). -/
abbrev Coins := List Coin

/-- The lexicographic order on denominations, stated on the underlying
character data so that comparisons evaluate inside the kernel; it
agrees with the library order on strings (`denomLt_iff`). -/
def denomLt (a b : String) : Prop := a.data < b.data

instance denomLtDec : (a b : String) → Decidable (denomLt a b) :=
  fun a b => inferInstanceAs (Decidable (a.data < b.data))

/-- `Coins.AmountOf`: the amount of the entry with the given denom, `0`
if absent. Modelled from the spec: §4.1 `amount_of(denom) → integer: 0
if absent`. -/
def amountOf (l : Coins) (d : String) : ℤ :=
  match l.find? (fun c => c.denom == d) with
  | some c => c.amount
  | none => 0

/-- Insert one coin into a denom-sorted list, merging equal denoms and
dropping zero amounts. Helper for `coinsPlus`. -/
def insertCoin (c : Coin) : Coins → Coins
  | [] => if c.amount = 0 then [] else [c]
  | b :: bs =>
    if denomLt c.denom b.denom then
      if c.amount = 0 then b :: bs else c :: b :: bs
    else if denomLt b.denom c.denom then
      b :: insertCoin c bs
    else
      if c.amount + b.amount = 0 then bs
      else ⟨c.denom, c.amount + b.amount⟩ :: bs

/-- `Coins.Plus`. Modelled from the spec: §4.1 `plus(a, b)` merges by
denom, sums amounts, strips zeros, and returns a sorted result; adding
a zero-amount coin is a no-op. -/
def coinsPlus (a b : Coins) : Coins :=
  a.foldr insertCoin (b.foldr insertCoin [])

/-- Denom-wise negation, used to express subtraction. -/
def coinsNeg (b : Coins) : Coins :=
  b.map (fun c => ⟨c.denom, -c.amount⟩)

/-- `Coins.Minus`. Modelled from the spec: §4.1 `minus(a, b)` subtracts
denom-wise and fails with `NegativeResult` if any resulting amount
would be negative. -/
def coinsMinus (a b : Coins) : Except ArithErr Coins :=
  let r := coinsPlus a (coinsNeg b)
  if r.all (fun c => 0 ≤ c.amount) then .ok r else .error .negativeResult

/-- Normal form of `Coins` (spec §3.1): denoms unique and sorted, no
zero (or negative) amounts. -/
def CoinsSorted (l : Coins) : Prop :=
  l.Pairwise (fun a b => denomLt a.denom b.denom)

/-- Valid `Coins`: sorted with strictly positive amounts. -/
def CoinsValid (l : Coins) : Prop :=
  CoinsSorted l ∧ ∀ c ∈ l, 0 < c.amount

instance : DecidablePred CoinsSorted := fun l =>
  inferInstanceAs (Decidable (l.Pairwise _))

instance : DecidablePred CoinsValid := fun _ =>
  inferInstanceAs (Decidable (_ ∧ _))

/-! ## The fixed-precision decimal (`sdk.Dec`)

Modelled from the spec: §4.3 prescribes a fixed 18-digit decimal scalar
with round-to-nearest on the final multiplication (ties resolved to the
even quotient by the reference's `chopPrecisionAndRound`); §9 fixes the
precision at 18 digits. A `Dec` holds its value scaled by `10^18`. -/

/-- The decimal scale `10^18`, written as a literal. -/
def decPrec : ℤ := 1000000000000000000

/-- Round-to-nearest (ties to even) of `n / 10^18`, for `n ≥ 0`. -/
def chopRoundNonneg (n : ℤ) : ℤ :=
  if n % decPrec < decPrec / 2 then n / decPrec
  else if decPrec / 2 < n % decPrec then n / decPrec + 1
  else if (n / decPrec) % 2 = 0 then n / decPrec else n / decPrec + 1

/-- Round-to-nearest (ties to even, mirrored for negatives) of
`n / 10^18`: the reference's `chopPrecisionAndRound`. -/
def chopRound (n : ℤ) : ℤ :=
  if n < 0 then -chopRoundNonneg (-n) else chopRoundNonneg n

/-- A fixed-precision decimal: the underlying integer is the value
scaled by `10^18`. -/
structure Dec where
  i : ℤ
deriving DecidableEq, Repr

/-- `sdk.NewDec` / `sdk.NewDecFromInt`. -/
def Dec.ofInt (x : ℤ) : Dec := ⟨x * decPrec⟩

/-- `Dec.Quo`: scale the dividend by `10^36`, divide truncating toward
zero (Go `big.Int.Quo`), and round back one scale. Division by zero is
a Go panic, surfaced as `divByZero`. -/
def Dec.quo (a b : Dec) : Except ArithErr Dec :=
  if b.i = 0 then .error .divByZero
  else .ok ⟨chopRound ((a.i * decPrec * decPrec).tdiv b.i)⟩

/-- `Dec.Mul`: multiply the scaled integers and round back one scale. -/
def Dec.mul (a b : Dec) : Dec := ⟨chopRound (a.i * b.i)⟩

/-- `Dec.RoundInt`: round the decimal to the nearest integer. -/
def Dec.roundInt (a : Dec) : ℤ := chopRound a.i

/-- The scaled integer computed by `Dec.quo` on `NewDec(x)/NewDec(y)`. -/
def quoInt (x y : ℤ) : ℤ :=
  chopRound ((x * decPrec * decPrec * decPrec).tdiv (y * decPrec))

/-! ## Account data model (source `BaseAccount` and the vesting
accounts; field-for-field from the source structs) -/

/-- Source `BaseAccount`: address, base balance, pubkey, account
number, sequence. The pubkey is opaque to the engine and is carried as
an uninterpreted optional value. -/
structure BaseAccount where
  address : List ℕ
  coins : Coins
  pubKey : Option ℕ
  accountNumber : ℤ
  sequence : ℤ
deriving DecidableEq, Repr

/-- Source `BaseVestingAccount`: a `BaseAccount` plus the original
vesting amount, the delegated-free bucket and the end time (Unix
seconds). -/
structure BaseVestingAccount where
  baseAccount : BaseAccount
  originalVesting : Coins
  delegatedFree : Coins
  endTime : ℤ
deriving DecidableEq, Repr

/-- Source `ContinuousVestingAccount`: a `BaseVestingAccount` plus the
delegated-vesting bucket and the start time. -/
structure ContinuousVestingAccount where
  baseVestingAccount : BaseVestingAccount
  delegatedVesting : Coins
  startTime : ℤ
deriving DecidableEq, Repr

/-- Source `DelayedVestingAccount`: only the embedded
`BaseVestingAccount` (the struct is declared in the source; its vesting
methods are still a TODO there). -/
structure DelayedVestingAccount where
  baseVestingAccount : BaseVestingAccount
deriving DecidableEq, Repr

namespace ContinuousVestingAccount

/-- `GetCoins` on the embedded base account. -/
def getCoins (cva : ContinuousVestingAccount) : Coins :=
  cva.baseVestingAccount.baseAccount.coins

/-- The original vesting amount. -/
def originalVesting (cva : ContinuousVestingAccount) : Coins :=
  cva.baseVestingAccount.originalVesting

/-- The delegated-free bucket. -/
def delegatedFree (cva : ContinuousVestingAccount) : Coins :=
  cva.baseVestingAccount.delegatedFree

/-- The end time. -/
def endTime (cva : ContinuousVestingAccount) : ℤ :=
  cva.baseVestingAccount.endTime

/-- Replace the base balance (`cva.Coins = ...`). -/
def setCoins (cva : ContinuousVestingAccount) (bc : Coins) :
    ContinuousVestingAccount :=
  { cva with baseVestingAccount :=
      { cva.baseVestingAccount with baseAccount :=
          { cva.baseVestingAccount.baseAccount with coins := bc } } }

/-- Replace the delegated-free bucket. -/
def setDelegatedFree (cva : ContinuousVestingAccount) (df : Coins) :
    ContinuousVestingAccount :=
  { cva with baseVestingAccount :=
      { cva.baseVestingAccount with delegatedFree := df } }

/-- Replace the delegated-vesting bucket. -/
def setDelegatedVesting (cva : ContinuousVestingAccount) (dv : Coins) :
    ContinuousVestingAccount :=
  { cva with delegatedVesting := dv }

end ContinuousVestingAccount

/-- Source `NewContinuousVestingAccount`: base balance and original
vesting both start at `origCoins`; both delegation buckets start
empty. -/
def newContinuousVestingAccount (addr : List ℕ) (origCoins : Coins)
    (startTime endTime : ℤ) : ContinuousVestingAccount :=
  { baseVestingAccount :=
      { baseAccount :=
          { address := addr, coins := origCoins, pubKey := none
            accountNumber := 0, sequence := 0 }
        originalVesting := origCoins
        delegatedFree := []
        endTime := endTime }
    delegatedVesting := []
    startTime := startTime }

/-- The loop body of source `GetVestedCoins`:
`sdk.NewDecFromInt(ovc.Amount).Mul(s).RoundInt()`. -/
def vestedAmt (s : Dec) (a : ℤ) : ℤ :=
  ((Dec.ofInt a).mul s).roundInt

/-- The accumulation loop of source `GetVestedCoins`: apply the scalar
to every original-vesting entry and accumulate the rounded results with
`Plus`. -/
def vestedCoinsList (s : Dec) (ov : Coins) : Coins :=
  ov.foldl (fun acc ovc => coinsPlus acc [⟨ovc.denom, vestedAmt s ovc.amount⟩]) []

/-- Source `GetVestedCoins`: `nil` when `blockTime ≤ startTime`;
otherwise the scalar `s = (blockTime − startTime)/(endTime − startTime)`
is applied to every original-vesting entry and the rounded results are
accumulated with `Plus`. Note the source does not clamp at `endTime`. -/
def getVestedCoins (cva : ContinuousVestingAccount) (blockTime : ℤ) :
    Except ArithErr Coins :=
  if blockTime ≤ cva.startTime then .ok []
  else
    match Dec.quo (Dec.ofInt (blockTime - cva.startTime))
        (Dec.ofInt (cva.endTime - cva.startTime)) with
    | .error e => .error e
    | .ok s => .ok (vestedCoinsList s cva.originalVesting)

/-- Source `GetVestingCoins`: `originalVesting.Minus(GetVestedCoins)`. -/
def getVestingCoins (cva : ContinuousVestingAccount) (blockTime : ℤ) :
    Except ArithErr Coins :=
  match getVestedCoins cva blockTime with
  | .error e => .error e
  | .ok v => coinsMinus cva.originalVesting v

/-- The vesting scalar an account uses at a given block time (the
scaled integer behind `s = (t − start)/(end − start)`). -/
def sAt (cva : ContinuousVestingAccount) (blockTime : ℤ) : ℤ :=
  quoInt (blockTime - cva.startTime) (cva.endTime - cva.startTime)

/-- The per-denom amount `GetVestedCoins` reports (zero at or before
the start time, else the rounded scaled amount). -/
def vestedAt (cva : ContinuousVestingAccount) (blockTime : ℤ)
    (d : String) : ℤ :=
  if blockTime ≤ cva.startTime then 0
  else vestedAmt ⟨sAt cva blockTime⟩ (amountOf cva.originalVesting d)

/-- Source `SpendableCoins`: for each base-balance entry compute
`min(BC(d) + DV(d) − V(d), BC(d))` (the source applies no lower clamp)
and accumulate the nonzero results. -/
def spendableCoins (cva : ContinuousVestingAccount) (blockTime : ℤ) :
    Except ArithErr Coins :=
  match getVestingCoins cva blockTime with
  | .error e => .error e
  | .ok v =>
    .ok (cva.getCoins.foldl
      (fun sp coin =>
        let m := min (coin.amount + amountOf cva.delegatedVesting coin.denom
          - amountOf v coin.denom) coin.amount
        if m = 0 then sp else coinsPlus sp [⟨coin.denom, m⟩])
      [])

/-- `X := min(max(V − DV, 0), D)` of the source `TrackDelegation` loop
body: the delegated portion attributed to still-vesting coins. -/
def delegX (v : Coins) (cva : ContinuousVestingAccount) (coin : Coin) : ℤ :=
  min (max (amountOf v coin.denom
    - amountOf cva.delegatedVesting coin.denom) 0) coin.amount

/-- The bucket updates of one non-skipped `TrackDelegation` iteration:
add `X` to `delegatedVesting` and `Y = D − X` to `delegatedFree`, each
skipped when zero, exactly as in the source. -/
def delegStep (v : Coins) (cva : ContinuousVestingAccount) (coin : Coin) :
    ContinuousVestingAccount :=
  let x := delegX v cva coin
  let y := coin.amount - x
  let cva1 := if x = 0 then cva else
    cva.setDelegatedVesting (coinsPlus cva.delegatedVesting [⟨coin.denom, x⟩])
  if y = 0 then cva1 else
    cva1.setDelegatedFree (coinsPlus cva1.delegatedFree [⟨coin.denom, y⟩])

/-- The per-coin loop of source `TrackDelegation`. `bc` and `v` are the
values read once before the loop; in particular the base balance written
each iteration is `bc.Minus({coin})` for the loop's fixed `bc`. The
guarded `bc.Minus` can still fail on a receiver outside the normal form;
a failure carries the receiver as mutated so far, like a recovered Go
panic. -/
def trackDelegationLoop (bc v : Coins) :
    ContinuousVestingAccount → Coins →
    Except (ArithErr × ContinuousVestingAccount) ContinuousVestingAccount
  | cva, [] => .ok cva
  | cva, coin :: rest =>
    if coin.amount = 0 ∨ amountOf bc coin.denom < coin.amount then
      trackDelegationLoop bc v cva rest
    else
      match coinsMinus bc [coin] with
      | .error e => .error (e, delegStep v cva coin)
      | .ok bc2 => trackDelegationLoop bc v ((delegStep v cva coin).setCoins bc2) rest

/-- Source `TrackDelegation`: read `bc` and `v` once, then run the
per-coin loop. A failure of `GetVestingCoins` happens before any
mutation, so it carries the untouched receiver. -/
def trackDelegation (cva : ContinuousVestingAccount) (blockTime : ℤ)
    (amount : Coins) :
    Except (ArithErr × ContinuousVestingAccount) ContinuousVestingAccount :=
  match getVestingCoins cva blockTime with
  | .error e => .error (e, cva)
  | .ok v => trackDelegationLoop cva.getCoins v cva amount

/-- `X := min(DF, D)` of the source `TrackUndelegation` loop body: the
portion unwound from the delegated-free bucket first. -/
def undelegX (cva : ContinuousVestingAccount) (coin : Coin) : ℤ :=
  min (amountOf cva.delegatedFree coin.denom) coin.amount

/-- The second half of one non-skipped `TrackUndelegation` iteration:
subtract `Y = D − X` from `delegatedVesting` (skipped when zero). As in
the source, `delegatedFree` was already decreased before this fallible
subtraction, so a `NegativeResult` here leaves the already-updated
`delegatedFree` behind in the carried receiver. -/
def undelegStage2 (coin : Coin) (cva1 : ContinuousVestingAccount)
    (y : ℤ) :
    Except (ArithErr × ContinuousVestingAccount) ContinuousVestingAccount :=
  if y = 0 then .ok cva1 else
    match coinsMinus cva1.delegatedVesting [⟨coin.denom, y⟩] with
    | .error e => .error (e, cva1)
    | .ok dv => .ok (cva1.setDelegatedVesting dv)

/-- The bucket updates of one non-skipped `TrackUndelegation`
iteration (continued): the whole per-coin body. -/
def undelegStep (cva : ContinuousVestingAccount) (coin : Coin) :
    Except (ArithErr × ContinuousVestingAccount) ContinuousVestingAccount :=
  match (if undelegX cva coin = 0 then .ok cva else
      match coinsMinus cva.delegatedFree [⟨coin.denom, undelegX cva coin⟩] with
      | .error e => .error (e, cva)
      | .ok df => .ok (cva.setDelegatedFree df) :
    Except (ArithErr × ContinuousVestingAccount) ContinuousVestingAccount) with
  | .error e => .error e
  | .ok cva1 => undelegStage2 coin cva1 (coin.amount - undelegX cva coin)

/-- The per-coin loop of source `TrackUndelegation`. The base balance
written each iteration is `bc.Plus({coin})` for the loop's fixed
`bc`. -/
def trackUndelegationLoop (bc : Coins) :
    ContinuousVestingAccount → Coins →
    Except (ArithErr × ContinuousVestingAccount) ContinuousVestingAccount
  | cva, [] => .ok cva
  | cva, coin :: rest =>
    if coin.amount = 0 then
      trackUndelegationLoop bc cva rest
    else
      match undelegStep cva coin with
      | .error e => .error e
      | .ok cva2 =>
        trackUndelegationLoop bc (cva2.setCoins (coinsPlus bc [coin])) rest

/-- Source `TrackUndelegation`: read `bc` once, then run the per-coin
loop. -/
def trackUndelegation (cva : ContinuousVestingAccount) (amount : Coins) :
    Except (ArithErr × ContinuousVestingAccount) ContinuousVestingAccount :=
  trackUndelegationLoop cva.getCoins cva amount

/-- The observable account after a mutating call whether or not it
failed: a failure's carried receiver is what a recovered Go panic
leaves behind. -/
def afterCall (r : Except (ArithErr × ContinuousVestingAccount)
    ContinuousVestingAccount) : ContinuousVestingAccount :=
  match r with
  | .ok a => a
  | .error (_, a) => a

/-- The account after `TrackDelegation(t, D)` followed by
`TrackUndelegation(D)`: if the delegation call fails (a Go panic), the
undelegation call never runs. -/
def delegateThenUndelegate (cva : ContinuousVestingAccount) (blockTime : ℤ)
    (amount : Coins) : ContinuousVestingAccount :=
  match trackDelegation cva blockTime amount with
  | .error (_, a) => a
  | .ok a1 => afterCall (trackUndelegation a1 amount)

namespace DelayedVestingAccount

/-- `GetCoins` on the embedded base account. -/
def getCoins (dva : DelayedVestingAccount) : Coins :=
  dva.baseVestingAccount.baseAccount.coins

/-- The original vesting amount. -/
def originalVesting (dva : DelayedVestingAccount) : Coins :=
  dva.baseVestingAccount.originalVesting

/-- The end time. -/
def endTime (dva : DelayedVestingAccount) : ℤ :=
  dva.baseVestingAccount.endTime

end DelayedVestingAccount

/-- Modelled from the spec: the source declares `DelayedVestingAccount`
but leaves its `VestingAccount` methods unimplemented (the interface
assertion is a commented-out TODO). Spec §4.3, delayed schedule:
`vested(t) = 0` for `t < end_time`, else the full original vesting. -/
def delayedGetVestedCoins (dva : DelayedVestingAccount) (blockTime : ℤ) :
    Coins :=
  if blockTime < dva.endTime then [] else dva.originalVesting

/-- Modelled from the spec: `vesting(t) = OV − vested(t)` (§4.3); for
the delayed schedule this is `OV` before `end_time` and `0` from
`end_time` on. -/
def delayedGetVestingCoins (dva : DelayedVestingAccount) (blockTime : ℤ) :
    Coins :=
  if blockTime < dva.endTime then dva.originalVesting else []

/-- Modelled from the spec: §4.4 computes
`spendable(d) = min(max(BC(d) + DV(d) − V(d), 0), BC(d))` for each
base-balance denom and strips zero results; a delayed account has no
delegated-vesting bucket, so `DV = 0`. -/
def delayedSpendableCoins (dva : DelayedVestingAccount) (blockTime : ℤ) :
    Coins :=
  dva.getCoins.foldl
    (fun sp coin =>
      let m := min (max (coin.amount
        - amountOf (delayedGetVestingCoins dva blockTime) coin.denom) 0)
        coin.amount
      if m = 0 then sp else coinsPlus sp [⟨coin.denom, m⟩])
    []

/-- A denom's conserved quantity `Q(d)` (spec §4.7): base balance plus
both delegation buckets. -/
def bucketTotal (cva : ContinuousVestingAccount) (d : String) : ℤ :=
  amountOf cva.getCoins d + amountOf cva.delegatedVesting d
    + amountOf cva.delegatedFree d

/-- Sample account: 100 atom vesting linearly from time 0 to 100. -/
def acctA : ContinuousVestingAccount :=
  newContinuousVestingAccount [1] [⟨"atom", 100⟩] 0 100

/-- Sample degenerate account: end time (0) before start time (100);
the source constructor performs no schedule validation. -/
def acctDegen : ContinuousVestingAccount :=
  newContinuousVestingAccount [1] [⟨"atom", 100⟩] 100 0

/-- Sample two-denom account: 50 aaa and 50 bbb vesting from 0 to 100. -/
def acctAB : ContinuousVestingAccount :=
  newContinuousVestingAccount [1] [⟨"aaa", 50⟩, ⟨"bbb", 50⟩] 0 100

/-- Sample account with existing delegation buckets: empty balance,
5 atom delegated free and 3 atom delegated vesting. -/
def acctDel : ContinuousVestingAccount :=
  { baseVestingAccount :=
      { baseAccount :=
          { address := [1], coins := [], pubKey := none
            accountNumber := 0, sequence := 0 }
        originalVesting := [⟨"atom", 100⟩]
        delegatedFree := [⟨"atom", 5⟩]
        endTime := 100 }
    delegatedVesting := [⟨"atom", 3⟩]
    startTime := 0 }

/-- Sample delayed account whose base balance (150 atom) exceeds its
original vesting (100 atom), unlocking at time 100. -/
def dvaEx : DelayedVestingAccount :=
  { baseVestingAccount :=
      { baseAccount :=
          { address := [1], coins := [⟨"atom", 150⟩], pubKey := none
            accountNumber := 0, sequence := 0 }
        originalVesting := [⟨"atom", 100⟩]
        delegatedFree := []
        endTime := 100 } }

/-- Go method-call semantics for the value-receiver query
`SpendableCoins`: the receiver is copied and the body performs no field
assignment, so the caller's account comes back unchanged next to the
result. -/
def spendableCoinsCall (cva : ContinuousVestingAccount) (blockTime : ℤ) :
    Except ArithErr Coins × ContinuousVestingAccount :=
  (spendableCoins cva blockTime, cva)

/-- Go method-call semantics for the value-receiver query
`GetVestedCoins`. -/
def getVestedCoinsCall (cva : ContinuousVestingAccount) (blockTime : ℤ) :
    Except ArithErr Coins × ContinuousVestingAccount :=
  (getVestedCoins cva blockTime, cva)

/-- Go method-call semantics for the value-receiver query
`GetVestingCoins`. -/
def getVestingCoinsCall (cva : ContinuousVestingAccount) (blockTime : ℤ) :
    Except ArithErr Coins × ContinuousVestingAccount :=
  (getVestingCoins cva blockTime, cva)

/-! ## The denomination order -/

theorem denomLt_iff {a b : String} : denomLt a b ↔ a < b :=
  String.lt_iff_toList_lt.symm

theorem denomLt_trans {a b c : String} (h1 : denomLt a b)
    (h2 : denomLt b c) : denomLt a c :=
  denomLt_iff.mpr (lt_trans (denomLt_iff.mp h1) (denomLt_iff.mp h2))

theorem denomLt_irrefl (a : String) : ¬denomLt a a :=
  fun h => lt_irrefl a (denomLt_iff.mp h)

theorem denomLt_asymm {a b : String} (h : denomLt a b) : ¬denomLt b a :=
  fun h2 => lt_irrefl a (lt_trans (denomLt_iff.mp h) (denomLt_iff.mp h2))

theorem denomLt_ne {a b : String} (h : denomLt a b) : a ≠ b :=
  ne_of_lt (denomLt_iff.mp h)

theorem denomLt_ne_sym {a b : String} (h : denomLt a b) : b ≠ a :=
  ne_of_gt (denomLt_iff.mp h)

theorem denomLt_total_eq {a b : String} (h1 : ¬denomLt a b)
    (h2 : ¬denomLt b a) : a = b := by
  have h1a : ¬a < b := fun hc => h1 (denomLt_iff.mpr hc)
  have h2a : ¬b < a := fun hc => h2 (denomLt_iff.mpr hc)
  exact le_antisymm (not_lt.mp h2a) (not_lt.mp h1a)

theorem denomLt_trichotomy (a b : String) :
    denomLt a b ∨ a = b ∨ denomLt b a := by
  rcases lt_trichotomy a b with h | h | h
  · exact Or.inl (denomLt_iff.mpr h)
  · exact Or.inr (Or.inl h)
  · exact Or.inr (Or.inr (denomLt_iff.mpr h))

/-! ## Coin arithmetic: basic lemmas -/

theorem amountOf_nil (d : String) : amountOf [] d = 0 := rfl

theorem amountOf_cons (c : Coin) (l : Coins) (d : String) :
    amountOf (c :: l) d = if c.denom = d then c.amount else amountOf l d := by
  by_cases h : c.denom = d
  · simp [amountOf, List.find?, h]
  · simp only [amountOf, List.find?]
    have hb : (c.denom == d) = false := beq_eq_false_iff_ne.mpr h
    rw [hb, if_neg h]

theorem amountOf_eq_zero {l : Coins} {d : String}
    (h : ∀ c ∈ l, c.denom ≠ d) : amountOf l d = 0 := by
  induction l with
  | nil => rfl
  | cons c cs ih =>
    rw [amountOf_cons, if_neg (h c (by simp))]
    exact ih fun x hx => h x (by simp [hx])

theorem amountOf_nonneg_of_all {l : Coins} (h : ∀ c ∈ l, 0 ≤ c.amount)
    (d : String) : 0 ≤ amountOf l d := by
  unfold amountOf
  cases hf : l.find? (fun c => c.denom == d) with
  | none => simp
  | some c => exact h c (List.mem_of_find?_eq_some hf)

theorem CoinsValid.amountOf_nonneg {l : Coins} (hv : CoinsValid l)
    (d : String) : 0 ≤ amountOf l d :=
  Vesting.amountOf_nonneg_of_all (fun c hc => le_of_lt (hv.2 c hc)) d

theorem CoinsSorted.of_cons {c : Coin} {l : Coins}
    (h : CoinsSorted (c :: l)) : CoinsSorted l :=
  List.Pairwise.of_cons h

theorem amountOf_entry {l : Coins} (hs : CoinsSorted l) {c : Coin}
    (hc : c ∈ l) : amountOf l c.denom = c.amount := by
  induction l with
  | nil => cases hc
  | cons b bs ih =>
    rcases List.mem_cons.mp hc with rfl | hmem
    · rw [amountOf_cons, if_pos rfl]
    · rw [amountOf_cons,
        if_neg (denomLt_ne (List.rel_of_pairwise_cons hs hmem))]
      exact ih hs.of_cons hmem

theorem all_eq_false_of_amountOf_neg {l : Coins} {d : String}
    (h : amountOf l d < 0) :
    (l.all fun c => 0 ≤ c.amount) = false := by
  unfold amountOf at h
  cases hf : l.find? (fun c => c.denom == d) with
  | none => rw [hf] at h; simp at h
  | some c =>
    rw [hf] at h
    refine List.all_eq_false.mpr ⟨c, List.mem_of_find?_eq_some hf, ?_⟩
    simpa using not_le.mpr h

theorem amountOf_singleton (e : String) (x : ℤ) (d : String) :
    amountOf [⟨e, x⟩] d = if e = d then x else 0 := by
  rw [amountOf_cons]; rfl

theorem coinsSorted_nil : CoinsSorted [] := List.Pairwise.nil

theorem coinsSorted_singleton (c : Coin) : CoinsSorted [c] := by
  simp [CoinsSorted]

/-! ## insertCoin lemmas -/

theorem mem_insertCoin {c x : Coin} {l : Coins}
    (h : x ∈ insertCoin c l) : x.denom = c.denom ∨ x ∈ l := by
  induction l with
  | nil =>
    unfold insertCoin at h
    split at h
    · cases h
    · left; rcases List.mem_singleton.mp h with rfl; rfl
  | cons b bs ih =>
    unfold insertCoin at h
    split_ifs at h with h1 h2 h3 h4 h5
    · right; exact h
    · rcases List.mem_cons.mp h with rfl | hm
      · left; rfl
      · right; exact hm
    · rcases List.mem_cons.mp h with rfl | hm
      · right; exact List.mem_cons_self _ _
      · rcases ih hm with hd | hmem
        · left; exact hd
        · right; exact List.mem_cons_of_mem _ hmem
    · right; exact List.mem_cons_of_mem _ h
    · rcases List.mem_cons.mp h with rfl | hm
      · left; rfl
      · right; exact List.mem_cons_of_mem _ hm

theorem insertCoin_sorted {l : Coins} (hl : CoinsSorted l) (c : Coin) :
    CoinsSorted (insertCoin c l) := by
  induction l with
  | nil =>
    unfold insertCoin; split
    · exact coinsSorted_nil
    · exact coinsSorted_singleton c
  | cons b bs ih =>
    unfold insertCoin
    split_ifs with h1 h2 h3 h4 h5
    · exact hl
    · refine List.Pairwise.cons (fun x hx => ?_) hl
      rcases List.mem_cons.mp hx with rfl | hm
      · exact h1
      · exact denomLt_trans h1 (List.rel_of_pairwise_cons hl hm)
    · refine List.Pairwise.cons (fun x hx => ?_) (ih hl.of_cons)
      rcases mem_insertCoin hx with hd | hm
      · rw [hd]; exact h3
      · exact List.rel_of_pairwise_cons hl hm
    · exact hl.of_cons
    · refine List.Pairwise.cons (fun x hx => ?_) hl.of_cons
      have heq : c.denom = b.denom := denomLt_total_eq h1 h3
      rw [heq]
      exact List.rel_of_pairwise_cons hl hx

theorem insertCoin_nonzero (c : Coin) (l : Coins) :
    (∀ x ∈ l, x.amount ≠ 0) → ∀ x ∈ insertCoin c l, x.amount ≠ 0 := by
  induction l with
  | nil =>
    intro _ x hx
    unfold insertCoin at hx
    split_ifs at hx with h0
    · cases hx
    · rcases List.mem_singleton.mp hx with rfl; exact h0
  | cons b bs ih =>
    intro h x hx
    unfold insertCoin at hx
    split_ifs at hx with h1 h2 h3 h4
    · exact h x hx
    · rcases List.mem_cons.mp hx with rfl | hm
      · exact h2
      · exact h x hm
    · rcases List.mem_cons.mp hx with rfl | hm
      · exact h _ (List.mem_cons_self _ _)
      · exact ih (fun y hy => h y (List.mem_cons_of_mem _ hy)) x hm
    · exact h x (List.mem_cons_of_mem _ hx)
    · rcases List.mem_cons.mp hx with rfl | hm
      · exact h4
      · exact h x (List.mem_cons_of_mem _ hm)

theorem amountOf_insertCoin {l : Coins} (hl : CoinsSorted l)
    (c : Coin) (d : String) :
    amountOf (insertCoin c l) d
      = amountOf l d + if c.denom = d then c.amount else 0 := by
  induction l with
  | nil =>
    unfold insertCoin
    by_cases h0 : c.amount = 0
    · rw [if_pos h0]
      by_cases h : c.denom = d <;> simp [amountOf_nil, h, h0]
    · rw [if_neg h0]
      by_cases h : c.denom = d <;> simp [amountOf_cons, amountOf_nil, h]
  | cons b bs ih =>
    unfold insertCoin
    rcases denomLt_trichotomy c.denom b.denom with h1 | h1 | h1
    · -- c.denom < b.denom
      rw [if_pos h1]
      have hz : c.denom = d → amountOf (b :: bs) d = 0 := by
        intro h
        refine amountOf_eq_zero fun x hx => ?_
        rcases List.mem_cons.mp hx with rfl | hm
        · rw [← h]; exact denomLt_ne_sym h1
        · rw [← h]
          exact denomLt_ne_sym (denomLt_trans h1 (List.rel_of_pairwise_cons hl hm))
      by_cases h0 : c.amount = 0
      · rw [if_pos h0]
        by_cases h : c.denom = d
        · rw [hz h, if_pos h, h0]; omega
        · rw [if_neg h]; omega
      · rw [if_neg h0, amountOf_cons]
        by_cases h : c.denom = d
        · rw [if_pos h, if_pos h, hz h]; omega
        · rw [if_neg h, if_neg h]; omega
    · -- equal denoms: merge or drop
      rw [if_neg (by rw [h1]; exact denomLt_irrefl _),
        if_neg (by rw [h1]; exact denomLt_irrefl _)]
      have hz : b.denom = d → amountOf bs d = 0 := by
        intro h
        refine amountOf_eq_zero fun x hx => ?_
        rw [← h]
        exact denomLt_ne_sym (List.rel_of_pairwise_cons hl hx)
      by_cases h0 : c.amount + b.amount = 0
      · rw [if_pos h0, amountOf_cons]
        by_cases h : b.denom = d
        · rw [if_pos h, if_pos (h1.trans h), hz h]; omega
        · rw [if_neg h, if_neg fun hc => h (h1.symm.trans hc)]; omega
      · rw [if_neg h0, amountOf_cons, amountOf_cons]
        by_cases h : b.denom = d
        · simp only [h1, if_pos h, hz h]; omega
        · simp only [h1, if_neg h]; omega
    · -- b.denom < c.denom: recurse
      rw [if_neg (denomLt_asymm h1), if_pos h1, amountOf_cons,
        amountOf_cons, ih hl.of_cons]
      by_cases h : b.denom = d
      · have hcd : c.denom ≠ d := by rw [← h]; exact denomLt_ne_sym h1
        rw [if_pos h, if_pos h, if_neg hcd]; omega
      · rw [if_neg h, if_neg h]

/-! ## coinsPlus, coinsNeg and coinsMinus lemmas -/

theorem foldr_insert_sorted (l : Coins) {init : Coins}
    (hinit : CoinsSorted init) :
    CoinsSorted (l.foldr insertCoin init) := by
  induction l with
  | nil => exact hinit
  | cons c cs ih => exact insertCoin_sorted ih c

theorem foldr_insert_nonzero (l : Coins) {init : Coins}
    (hinit : ∀ x ∈ init, x.amount ≠ 0) :
    ∀ x ∈ l.foldr insertCoin init, x.amount ≠ 0 := by
  induction l with
  | nil => exact hinit
  | cons c cs ih => exact insertCoin_nonzero c _ ih

theorem coinsPlus_sorted (a b : Coins) : CoinsSorted (coinsPlus a b) :=
  foldr_insert_sorted a (foldr_insert_sorted b coinsSorted_nil)

theorem coinsPlus_nonzero (a b : Coins) :
    ∀ x ∈ coinsPlus a b, x.amount ≠ 0 :=
  foldr_insert_nonzero a (foldr_insert_nonzero b (by intro x hx; cases hx))

theorem amountOf_foldr_insert {l : Coins} (hl : CoinsSorted l)
    {init : Coins} (hinit : CoinsSorted init) (d : String) :
    amountOf (l.foldr insertCoin init) d = amountOf l d + amountOf init d := by
  induction l with
  | nil => simp [amountOf_nil]
  | cons c cs ih =>
    rw [List.foldr_cons,
      amountOf_insertCoin (foldr_insert_sorted cs hinit),
      ih hl.of_cons, amountOf_cons]
    by_cases h : c.denom = d
    · have hz : amountOf cs d = 0 := by
        refine amountOf_eq_zero fun x hx => ?_
        rw [← h]
        exact denomLt_ne_sym (List.rel_of_pairwise_cons hl hx)
      simp only [hz, if_pos h]; omega
    · simp only [if_neg h]; omega

theorem amountOf_coinsPlus {a b : Coins} (ha : CoinsSorted a)
    (hb : CoinsSorted b) (d : String) :
    amountOf (coinsPlus a b) d = amountOf a d + amountOf b d := by
  unfold coinsPlus
  rw [amountOf_foldr_insert ha (foldr_insert_sorted b coinsSorted_nil),
    amountOf_foldr_insert hb coinsSorted_nil, amountOf_nil]
  omega

theorem coinsPlus_valid {a b : Coins} (ha : CoinsValid a)
    (hb : CoinsValid b) : CoinsValid (coinsPlus a b) := by
  refine ⟨coinsPlus_sorted a b, fun c hc => ?_⟩
  have he := amountOf_entry (coinsPlus_sorted a b) hc
  have hnz := coinsPlus_nonzero a b c hc
  have := ha.amountOf_nonneg c.denom
  have := hb.amountOf_nonneg c.denom
  have := amountOf_coinsPlus ha.1 hb.1 c.denom
  omega

theorem coinsNeg_sorted {b : Coins} (hb : CoinsSorted b) :
    CoinsSorted (coinsNeg b) :=
  List.Pairwise.map _ (fun _ _ h => h) hb

theorem amountOf_coinsNeg (b : Coins) (d : String) :
    amountOf (coinsNeg b) d = -amountOf b d := by
  induction b with
  | nil => rfl
  | cons c cs ih =>
    show amountOf (⟨c.denom, -c.amount⟩ :: coinsNeg cs) d = _
    rw [amountOf_cons, amountOf_cons]
    by_cases h : c.denom = d
    · simp only [if_pos h]
    · simp only [if_neg h, ih]

theorem coinsMinus_ok {a b : Coins} (ha : CoinsSorted a)
    (hb : CoinsSorted b) (h : ∀ d, amountOf b d ≤ amountOf a d) :
    ∃ r, coinsMinus a b = .ok r ∧ CoinsValid r ∧
      ∀ d, amountOf r d = amountOf a d - amountOf b d := by
  have hrs : CoinsSorted (coinsPlus a (coinsNeg b)) :=
    coinsPlus_sorted a (coinsNeg b)
  have hamt : ∀ d, amountOf (coinsPlus a (coinsNeg b)) d
      = amountOf a d - amountOf b d := by
    intro d
    rw [amountOf_coinsPlus ha (coinsNeg_sorted hb), amountOf_coinsNeg]
    omega
  have hall : (coinsPlus a (coinsNeg b)).all (fun c => 0 ≤ c.amount) = true := by
    refine List.all_eq_true.mpr fun c hc => ?_
    have he := amountOf_entry hrs hc
    have h1 := hamt c.denom
    have h2 := h c.denom
    simp only [decide_eq_true_eq]
    omega
  refine ⟨coinsPlus a (coinsNeg b), ?_, ⟨hrs, fun c hc => ?_⟩, hamt⟩
  · simp only [coinsMinus, hall, if_true]
  · have he := amountOf_entry hrs hc
    have hnz := coinsPlus_nonzero a (coinsNeg b) c hc
    have h1 := hamt c.denom
    have h2 := h c.denom
    omega

theorem coinsMinus_neg {a b : Coins} (ha : CoinsSorted a)
    (hb : CoinsSorted b) {d : String}
    (h : amountOf a d < amountOf b d) :
    coinsMinus a b = .error .negativeResult := by
  have hneg : amountOf (coinsPlus a (coinsNeg b)) d < 0 := by
    rw [amountOf_coinsPlus ha (coinsNeg_sorted hb), amountOf_coinsNeg]
    omega
  simp only [coinsMinus, all_eq_false_of_amountOf_neg hneg,
    Bool.false_eq_true, if_false]

/-! ## Rounding and decimal lemmas -/

theorem decPrec_pos : (0 : ℤ) < decPrec := by norm_num [decPrec]

theorem chopRoundNonneg_bounds {n : ℤ} (hn : 0 ≤ n) :
    n - decPrec / 2 ≤ decPrec * chopRoundNonneg n ∧
      decPrec * chopRoundNonneg n ≤ n + decPrec / 2 := by
  have h0 := Int.ediv_add_emod n decPrec
  have h1 : 0 ≤ n % decPrec := Int.emod_nonneg n (by norm_num [decPrec])
  have h2 : n % decPrec < decPrec := Int.emod_lt_of_pos n decPrec_pos
  unfold chopRoundNonneg
  simp only [decPrec] at *
  split_ifs <;> constructor <;> omega

theorem chopRound_bounds (n : ℤ) :
    n - decPrec / 2 ≤ decPrec * chopRound n ∧
      decPrec * chopRound n ≤ n + decPrec / 2 := by
  unfold chopRound
  split_ifs with h
  · have hb := chopRoundNonneg_bounds (neg_nonneg.mpr (le_of_lt h))
    rw [mul_neg]
    simp only [decPrec] at *
    omega
  · exact chopRoundNonneg_bounds (not_lt.mp h)

theorem chopRound_mono {m n : ℤ} (h : m ≤ n) : chopRound m ≤ chopRound n := by
  by_contra hc
  push_neg at hc
  have hm := chopRound_bounds m
  have hn := chopRound_bounds n
  have hmn : m = n := by
    simp only [decPrec] at hm hn
    omega
  rw [hmn] at hc
  exact absurd hc (lt_irrefl _)

theorem chopRound_nonneg {n : ℤ} (h : 0 ≤ n) : 0 ≤ chopRound n := by
  unfold chopRound
  rw [if_neg (not_lt.mpr h)]
  unfold chopRoundNonneg
  have hq : 0 ≤ n / decPrec := Int.ediv_nonneg h (le_of_lt decPrec_pos)
  split_ifs <;> omega

theorem chopRound_mul_prec (k : ℤ) : chopRound (k * decPrec) = k := by
  unfold chopRound chopRoundNonneg
  simp only [decPrec] at *
  split_ifs <;> omega

theorem chopRound_zero : chopRound 0 = 0 := by decide

theorem vestedAmt_def (s : Dec) (a : ℤ) :
    vestedAmt s a = chopRound (chopRound (a * decPrec * s.i)) := rfl

theorem vestedAmt_zero (s : Dec) : vestedAmt s 0 = 0 := by
  rw [vestedAmt_def]
  simp [chopRound_zero]

theorem vestedAmt_mono {a : ℤ} (ha : 0 ≤ a) {s1 s2 : Dec}
    (h : s1.i ≤ s2.i) : vestedAmt s1 a ≤ vestedAmt s2 a := by
  rw [vestedAmt_def, vestedAmt_def]
  exact chopRound_mono (chopRound_mono
    (mul_le_mul_of_nonneg_left h (mul_nonneg ha (le_of_lt decPrec_pos))))

theorem vestedAmt_nonneg {a : ℤ} (ha : 0 ≤ a) {s : Dec} (hs : 0 ≤ s.i) :
    0 ≤ vestedAmt s a := by
  rw [vestedAmt_def]
  exact chopRound_nonneg (chopRound_nonneg
    (mul_nonneg (mul_nonneg ha (le_of_lt decPrec_pos)) hs))

theorem vestedAmt_le {a : ℤ} (ha : 0 ≤ a) {s : Dec}
    (hs : s.i ≤ decPrec) : vestedAmt s a ≤ a := by
  rw [vestedAmt_def]
  have h2 : chopRound (a * decPrec * s.i) ≤ a * decPrec := by
    calc chopRound (a * decPrec * s.i)
        ≤ chopRound (a * decPrec * decPrec) :=
          chopRound_mono
            (mul_le_mul_of_nonneg_left hs (mul_nonneg ha (le_of_lt decPrec_pos)))
      _ = a * decPrec := chopRound_mul_prec (a * decPrec)
  calc chopRound (chopRound (a * decPrec * s.i))
      ≤ chopRound (a * decPrec) := chopRound_mono h2
    _ = a := chopRound_mul_prec a

theorem dec_quo_ok {x y : ℤ} (hy : y ≠ 0) :
    Dec.quo (Dec.ofInt x) (Dec.ofInt y) = .ok ⟨quoInt x y⟩ := by
  unfold Dec.quo Dec.ofInt quoInt
  rw [if_neg (mul_ne_zero hy (ne_of_gt decPrec_pos))]

theorem quoInt_nonneg {x y : ℤ} (hx : 0 ≤ x) (hy : 0 < y) :
    0 ≤ quoInt x y := by
  unfold quoInt
  have hP := le_of_lt decPrec_pos
  have hnum : 0 ≤ x * decPrec * decPrec * decPrec :=
    mul_nonneg (mul_nonneg (mul_nonneg hx hP) hP) hP
  have hden : 0 ≤ y * decPrec := mul_nonneg (le_of_lt hy) hP
  rw [Int.tdiv_eq_ediv hnum hden]
  exact chopRound_nonneg (Int.ediv_nonneg hnum hden)

theorem quoInt_mono {x1 x2 y : ℤ} (h0 : 0 ≤ x1) (h : x1 ≤ x2)
    (hy : 0 < y) : quoInt x1 y ≤ quoInt x2 y := by
  unfold quoInt
  have hP := le_of_lt decPrec_pos
  have h1 : 0 ≤ x1 * decPrec * decPrec * decPrec :=
    mul_nonneg (mul_nonneg (mul_nonneg h0 hP) hP) hP
  have h2 : 0 ≤ x2 * decPrec * decPrec * decPrec :=
    mul_nonneg (mul_nonneg (mul_nonneg (le_trans h0 h) hP) hP) hP
  have hden : 0 ≤ y * decPrec := mul_nonneg (le_of_lt hy) hP
  rw [Int.tdiv_eq_ediv h1 hden, Int.tdiv_eq_ediv h2 hden]
  refine chopRound_mono (Int.ediv_le_ediv (mul_pos hy decPrec_pos) ?_)
  exact mul_le_mul_of_nonneg_right
    (mul_le_mul_of_nonneg_right (mul_le_mul_of_nonneg_right h hP) hP) hP

theorem quoInt_le_prec {x y : ℤ} (hx : 0 ≤ x) (hxy : x ≤ y)
    (hy : 0 < y) : quoInt x y ≤ decPrec := by
  unfold quoInt
  have hP := le_of_lt decPrec_pos
  have hden : 0 < y * decPrec := mul_pos hy decPrec_pos
  have hnum : 0 ≤ x * decPrec * decPrec * decPrec :=
    mul_nonneg (mul_nonneg (mul_nonneg hx hP) hP) hP
  have hle : x * decPrec * decPrec * decPrec
      ≤ y * decPrec * (decPrec * decPrec) := by
    calc x * decPrec * decPrec * decPrec
        ≤ y * decPrec * decPrec * decPrec :=
          mul_le_mul_of_nonneg_right (mul_le_mul_of_nonneg_right
            (mul_le_mul_of_nonneg_right hxy hP) hP) hP
      _ = y * decPrec * (decPrec * decPrec) := by ring
  have hquot : (x * decPrec * decPrec * decPrec).tdiv (y * decPrec)
      ≤ decPrec * decPrec := by
    rw [Int.tdiv_eq_ediv hnum (le_of_lt hden)]
    calc x * decPrec * decPrec * decPrec / (y * decPrec)
        ≤ y * decPrec * (decPrec * decPrec) / (y * decPrec) :=
          Int.ediv_le_ediv hden hle
      _ = decPrec * decPrec := Int.mul_ediv_cancel_left _ (ne_of_gt hden)
  calc chopRound ((x * decPrec * decPrec * decPrec).tdiv (y * decPrec))
      ≤ chopRound (decPrec * decPrec) := chopRound_mono hquot
    _ = decPrec := chopRound_mul_prec decPrec

/-! ## The vested-coins loop -/

theorem foldl_vested_sorted (s : Dec) (ov : Coins) {acc : Coins}
    (hacc : CoinsSorted acc) :
    CoinsSorted (ov.foldl
      (fun acc ovc => coinsPlus acc [⟨ovc.denom, vestedAmt s ovc.amount⟩])
      acc) := by
  induction ov generalizing acc with
  | nil => exact hacc
  | cons c cs ih => exact ih (coinsPlus_sorted _ _)

theorem vestedCoinsList_sorted (s : Dec) (ov : Coins) :
    CoinsSorted (vestedCoinsList s ov) :=
  foldl_vested_sorted s ov coinsSorted_nil

theorem amountOf_foldl_vested {ov : Coins} (hov : CoinsSorted ov)
    (s : Dec) (d : String) {acc : Coins} (hacc : CoinsSorted acc) :
    amountOf (ov.foldl
      (fun acc ovc => coinsPlus acc [⟨ovc.denom, vestedAmt s ovc.amount⟩])
      acc) d
      = amountOf acc d + vestedAmt s (amountOf ov d) := by
  induction ov generalizing acc with
  | nil =>
    rw [List.foldl_nil, amountOf_nil, vestedAmt_zero]
    omega
  | cons c cs ih =>
    rw [List.foldl_cons, ih hov.of_cons (coinsPlus_sorted _ _),
      amountOf_coinsPlus hacc (coinsSorted_singleton _),
      amountOf_singleton, amountOf_cons]
    by_cases h : c.denom = d
    · have hz : amountOf cs d = 0 := by
        refine amountOf_eq_zero fun x hx => ?_
        rw [← h]
        exact denomLt_ne_sym (List.rel_of_pairwise_cons hov hx)
      simp only [hz, if_pos h, vestedAmt_zero]
      omega
    · simp only [if_neg h]
      omega

theorem amountOf_vestedCoinsList {ov : Coins} (hov : CoinsSorted ov)
    (s : Dec) (d : String) :
    amountOf (vestedCoinsList s ov) d = vestedAmt s (amountOf ov d) := by
  unfold vestedCoinsList
  rw [amountOf_foldl_vested hov s d coinsSorted_nil, amountOf_nil]
  omega

/-! ## getVestedCoins / getVestingCoins characterization -/

theorem getVestedCoins_le_start {cva : ContinuousVestingAccount} {t : ℤ}
    (h : t ≤ cva.startTime) : getVestedCoins cva t = .ok [] := by
  unfold getVestedCoins
  rw [if_pos h]

theorem getVestedCoins_gt_start {cva : ContinuousVestingAccount} {t : ℤ}
    (h : ¬t ≤ cva.startTime) (hy : cva.endTime - cva.startTime ≠ 0) :
    getVestedCoins cva t
      = .ok (vestedCoinsList ⟨sAt cva t⟩ cva.originalVesting) := by
  unfold getVestedCoins
  rw [if_neg h, dec_quo_ok hy]
  rfl

/-- `GetVestedCoins` succeeds whenever the schedule is not degenerate,
and the reported per-denom amount is `vestedAt`. -/
theorem getVestedCoins_spec {cva : ContinuousVestingAccount} {t : ℤ}
    (hov : CoinsSorted cva.originalVesting)
    (hy : cva.endTime - cva.startTime ≠ 0) :
    ∃ w, getVestedCoins cva t = .ok w ∧ CoinsSorted w ∧
      ∀ d, amountOf w d = vestedAt cva t d := by
  by_cases h : t ≤ cva.startTime
  · refine ⟨[], getVestedCoins_le_start h, coinsSorted_nil, fun d => ?_⟩
    rw [amountOf_nil, vestedAt, if_pos h]
  · refine ⟨_, getVestedCoins_gt_start h hy,
      vestedCoinsList_sorted _ _, fun d => ?_⟩
    rw [amountOf_vestedCoinsList hov, vestedAt, if_neg h]

theorem vestedAt_bounds {cva : ContinuousVestingAccount}
    (hov : CoinsValid cva.originalVesting)
    (hse : cva.startTime < cva.endTime) {t : ℤ} (ht : t ≤ cva.endTime)
    (d : String) :
    0 ≤ vestedAt cva t d ∧
      vestedAt cva t d ≤ amountOf cva.originalVesting d := by
  have hnn := hov.amountOf_nonneg d
  unfold vestedAt
  split_ifs with h
  · exact ⟨le_refl 0, hnn⟩
  · have hx : 0 ≤ t - cva.startTime := by omega
    have hy : 0 < cva.endTime - cva.startTime := by omega
    have hs0 : 0 ≤ sAt cva t := quoInt_nonneg hx hy
    have hs1 : sAt cva t ≤ decPrec :=
      quoInt_le_prec hx (by omega) hy
    exact ⟨vestedAmt_nonneg hnn hs0, vestedAmt_le hnn hs1⟩

/-- `GetVestingCoins` succeeds whenever the original vesting is in
normal form, the schedule is not degenerate and the block time is at
most the end time; the result reports `OV(d) − vestedAt(d)` per
denom. -/
theorem getVestingCoins_spec {cva : ContinuousVestingAccount} {t : ℤ}
    (hov : CoinsValid cva.originalVesting)
    (hse : cva.startTime < cva.endTime) (ht : t ≤ cva.endTime) :
    ∃ v, getVestingCoins cva t = .ok v ∧ CoinsValid v ∧
      ∀ d, amountOf v d
        = amountOf cva.originalVesting d - vestedAt cva t d := by
  obtain ⟨w, hw, hws, hwa⟩ :=
    getVestedCoins_spec (t := t) hov.1 (by omega)
  obtain ⟨v, hv, hvv, hva⟩ := coinsMinus_ok hov.1 hws
    (fun d => by rw [hwa d]; exact (vestedAt_bounds hov hse ht d).2)
  refine ⟨v, ?_, hvv, fun d => ?_⟩
  · unfold getVestingCoins
    rw [hw]
    exact hv
  · rw [hva d, hwa d]

/-! ## Accessor lemmas for the setters -/

theorem getCoins_setCoins (cva : ContinuousVestingAccount) (bc : Coins) :
    (cva.setCoins bc).getCoins = bc := rfl

theorem delegatedVesting_setCoins (cva : ContinuousVestingAccount)
    (bc : Coins) : (cva.setCoins bc).delegatedVesting = cva.delegatedVesting := rfl

theorem delegatedFree_setCoins (cva : ContinuousVestingAccount)
    (bc : Coins) : (cva.setCoins bc).delegatedFree = cva.delegatedFree := rfl

theorem getCoins_setDelegatedFree (cva : ContinuousVestingAccount)
    (df : Coins) : (cva.setDelegatedFree df).getCoins = cva.getCoins := rfl

theorem delegatedVesting_setDelegatedFree (cva : ContinuousVestingAccount)
    (df : Coins) :
    (cva.setDelegatedFree df).delegatedVesting = cva.delegatedVesting := rfl

theorem delegatedFree_setDelegatedFree (cva : ContinuousVestingAccount)
    (df : Coins) : (cva.setDelegatedFree df).delegatedFree = df := rfl

theorem getCoins_setDelegatedVesting (cva : ContinuousVestingAccount)
    (dv : Coins) : (cva.setDelegatedVesting dv).getCoins = cva.getCoins := rfl

theorem delegatedVesting_setDelegatedVesting (cva : ContinuousVestingAccount)
    (dv : Coins) : (cva.setDelegatedVesting dv).delegatedVesting = dv := rfl

theorem delegatedFree_setDelegatedVesting (cva : ContinuousVestingAccount)
    (dv : Coins) : (cva.setDelegatedVesting dv).delegatedFree = cva.delegatedFree := rfl

/-! ## Extensionality for normal-form coins -/

theorem coins_ext : ∀ {a b : Coins}, CoinsSorted a → CoinsSorted b →
    (∀ x ∈ a, x.amount ≠ 0) → (∀ x ∈ b, x.amount ≠ 0) →
    (∀ d, amountOf a d = amountOf b d) → a = b
  | [], [], _, _, _, _, _ => rfl
  | [], y :: ys, _, hb, _, hzb, h => by
    exfalso
    have h1 := amountOf_entry hb (List.mem_cons_self y ys)
    have h2 := h y.denom
    rw [amountOf_nil] at h2
    exact hzb y (List.mem_cons_self y ys) (by omega)
  | x :: xs, [], ha, _, hza, _, h => by
    exfalso
    have h1 := amountOf_entry ha (List.mem_cons_self x xs)
    have h2 := h x.denom
    rw [amountOf_nil] at h2
    exact hza x (List.mem_cons_self x xs) (by omega)
  | x :: xs, y :: ys, ha, hb, hza, hzb, h => by
    rcases denomLt_trichotomy x.denom y.denom with hd | hd | hd
    · exfalso
      have h1 := amountOf_entry ha (List.mem_cons_self x xs)
      have h2 : amountOf (y :: ys) x.denom = 0 := by
        refine amountOf_eq_zero fun c hc => ?_
        rcases List.mem_cons.mp hc with rfl | hm
        · exact denomLt_ne_sym hd
        · exact denomLt_ne_sym (denomLt_trans hd (List.rel_of_pairwise_cons hb hm))
      have h3 := h x.denom
      exact hza x (List.mem_cons_self x xs) (by omega)
    · have hxyamt : x.amount = y.amount := by
        have h1 := amountOf_entry ha (List.mem_cons_self x xs)
        have h2 := amountOf_entry hb (List.mem_cons_self y ys)
        have h3 := h x.denom
        rw [h1] at h3
        rw [hd] at h3
        rw [h2] at h3
        exact h3
      have hxy : x = y := by
        cases x; cases y
        simp only at hd hxyamt
        simp [hd, hxyamt]
      subst hxy
      have htail : xs = ys := by
        refine coins_ext ha.of_cons hb.of_cons
          (fun c hc => hza c (List.mem_cons_of_mem _ hc))
          (fun c hc => hzb c (List.mem_cons_of_mem _ hc))
          (fun d => ?_)
        by_cases hdd : x.denom = d
        · rw [amountOf_eq_zero, amountOf_eq_zero]
          · intro c hc
            rw [← hdd]
            exact denomLt_ne_sym (List.rel_of_pairwise_cons hb hc)
          · intro c hc
            rw [← hdd]
            exact denomLt_ne_sym (List.rel_of_pairwise_cons ha hc)
        · have h3 := h d
          rw [amountOf_cons, amountOf_cons, if_neg hdd, if_neg hdd] at h3
          exact h3
      rw [htail]
    · exfalso
      have h1 := amountOf_entry hb (List.mem_cons_self y ys)
      have h2 : amountOf (x :: xs) y.denom = 0 := by
        refine amountOf_eq_zero fun c hc => ?_
        rcases List.mem_cons.mp hc with rfl | hm
        · exact denomLt_ne_sym hd
        · exact denomLt_ne_sym (denomLt_trans hd (List.rel_of_pairwise_cons ha hm))
      have h3 := h y.denom
      exact hzb y (List.mem_cons_self y ys) (by omega)

/-! ## The spendable-coins accumulation loop, generically -/

theorem spendFold_spec {g : Coin → ℤ} {F : Coins → Coin → Coins}
    (hFeq : F = fun sp coin =>
      let m := g coin
      if m = 0 then sp else coinsPlus sp [⟨coin.denom, m⟩]) :
    ∀ {bc : Coins}, CoinsSorted bc →
    ∀ {acc : Coins}, CoinsSorted acc → (∀ x ∈ acc, x.amount ≠ 0) →
      CoinsSorted (bc.foldl F acc) ∧
      (∀ x ∈ bc.foldl F acc, x.amount ≠ 0) ∧
      (∀ d, (∀ c ∈ bc, c.denom ≠ d) →
        amountOf (bc.foldl F acc) d = amountOf acc d) ∧
      (∀ c ∈ bc, amountOf (bc.foldl F acc) c.denom
          = amountOf acc c.denom + g c) := by
  subst hFeq
  intro bc hbc
  induction bc with
  | nil =>
    intro acc hacc hz
    exact ⟨hacc, hz, fun d _ => rfl, fun c hc => absurd hc (List.not_mem_nil c)⟩
  | cons c cs ih =>
    intro acc hacc hz
    have hcs := hbc.of_cons
    have hrel := fun {x} (hx : x ∈ cs) => List.rel_of_pairwise_cons hbc hx
    set acc' : Coins :=
      if g c = 0 then acc else coinsPlus acc [⟨c.denom, g c⟩] with hacc'
    have hacc's : CoinsSorted acc' := by
      rw [hacc']
      split_ifs
      · exact hacc
      · exact coinsPlus_sorted _ _
    have hacc'z : ∀ x ∈ acc', x.amount ≠ 0 := by
      rw [hacc']
      split_ifs
      · exact hz
      · exact coinsPlus_nonzero _ _
    have hacc'a : ∀ d, amountOf acc' d
        = amountOf acc d + if c.denom = d then g c else 0 := by
      intro d
      by_cases h0 : g c = 0
      · rw [hacc', if_pos h0]
        by_cases h : c.denom = d <;> simp [h, h0]
      · rw [hacc', if_neg h0,
          amountOf_coinsPlus hacc (coinsSorted_singleton _),
          amountOf_singleton]
    have hfold : (c :: cs).foldl (fun sp coin =>
        let m := g coin
        if m = 0 then sp else coinsPlus sp [⟨coin.denom, m⟩]) acc
        = cs.foldl (fun sp coin =>
        let m := g coin
        if m = 0 then sp else coinsPlus sp [⟨coin.denom, m⟩]) acc' := by
      rw [List.foldl_cons]
    obtain ⟨ihs, ihz, ihabs, ihent⟩ := ih hcs hacc's hacc'z
    rw [hfold]
    refine ⟨ihs, ihz, fun d hd => ?_, fun x hx => ?_⟩
    · rw [ihabs d fun c' hc' => hd c' (List.mem_cons_of_mem _ hc'),
        hacc'a d, if_neg (hd c (List.mem_cons_self _ _))]
      omega
    · rcases List.mem_cons.mp hx with rfl | hm
      · rw [ihabs x.denom fun c' hc' => denomLt_ne_sym (hrel hc'),
          hacc'a x.denom, if_pos rfl]
      · rw [ihent x hm, hacc'a x.denom,
          if_neg (denomLt_ne (hrel hm))]
        omega

/-! ## Monotonicity of the vested amount in the block time -/

theorem vestedAt_mono {cva : ContinuousVestingAccount}
    (hov : CoinsValid cva.originalVesting)
    (hse : cva.startTime < cva.endTime) {t1 t2 : ℤ} (h12 : t1 ≤ t2)
    (d : String) : vestedAt cva t1 d ≤ vestedAt cva t2 d := by
  have hnn := hov.amountOf_nonneg d
  have hy : 0 < cva.endTime - cva.startTime := by omega
  unfold vestedAt
  split_ifs with ha hb hb
  · exact le_refl 0
  · exact vestedAmt_nonneg hnn (quoInt_nonneg (by omega) hy)
  · omega
  · exact vestedAmt_mono hnn (quoInt_mono (by omega) (by omega) hy)

/-! ## Claim C7 -/

/-- C7 (amended with the schedule well-formedness the spec requires at
construction: `start_time < end_time`, and a normal-form original
vesting): for `t₁ ≤ t₂`, `GetVestedCoins` succeeds at both times and
reports, for every denom, at least as much vested at `t₂` as at `t₁`.
Without `start_time < end_time` the source violates the claim, because
`NewContinuousVestingAccount` never validates the schedule and a
negative `end − start` makes the vesting scalar negative and
decreasing. -/
theorem C7_vested_monotonicity {cva : ContinuousVestingAccount}
    (hov : CoinsValid cva.originalVesting)
    (hse : cva.startTime < cva.endTime) {t1 t2 : ℤ} (h12 : t1 ≤ t2) :
    ∃ v1 v2, getVestedCoins cva t1 = .ok v1 ∧
      getVestedCoins cva t2 = .ok v2 ∧
      ∀ d, amountOf v1 d ≤ amountOf v2 d := by
  have hy : cva.endTime - cva.startTime ≠ 0 := by omega
  obtain ⟨v1, h1, _, h1a⟩ := getVestedCoins_spec (t := t1) hov.1 hy
  obtain ⟨v2, h2, _, h2a⟩ := getVestedCoins_spec (t := t2) hov.1 hy
  refine ⟨v1, v2, h1, h2, fun d => ?_⟩
  rw [h1a d, h2a d]
  exact vestedAt_mono hov hse h12 d

/-- C7 witness: the monotonicity theorem applied to the sample account
at times 30 and 60. -/
theorem C7_witness :
    CoinsValid acctA.originalVesting ∧
    acctA.startTime < acctA.endTime ∧ (30 : ℤ) ≤ 60 ∧
    (∃ v1 v2, getVestedCoins acctA 30 = .ok v1 ∧
      getVestedCoins acctA 60 = .ok v2 ∧
      ∀ d, amountOf v1 d ≤ amountOf v2 d) :=
  ⟨by decide, by decide, by decide,
    C7_vested_monotonicity (by decide) (by decide) (by decide)⟩

/-- C7 counterexample: the claim quantifies over every continuous
vesting account, but the source constructor accepts `end < start`; on
such an account the vested amount strictly decreases between times 150
and 200. -/
theorem C7_counterexample :
    (150 : ℤ) ≤ 200 ∧
    getVestedCoins acctDegen 150 = .ok [⟨"atom", -50⟩] ∧
    getVestedCoins acctDegen 200 = .ok [⟨"atom", -100⟩] ∧
    ¬amountOf [⟨"atom", -50⟩] "atom" ≤ amountOf [⟨"atom", -100⟩] "atom" :=
  ⟨by decide, by decide, by decide, by decide⟩

/-! ## Claim C3 -/

/-- C3: the claim (and spec §4.3) requires `vested(t) = OV` and
`vesting(t) = 0` for every `t ≥ end_time`, but the source clamps only
at `start_time`: at the end time itself both hold, while at `t = 200`
(end time 100, 100 atom vesting from 0) the source reports 200 atom
vested — double the original vesting — and the vesting-coins
subtraction `OV − vested` fails with `NegativeResult` instead of
returning zero. -/
theorem C3_end_clamp_missing :
    getVestedCoins acctA 100 = .ok [⟨"atom", 100⟩] ∧
    getVestingCoins acctA 100 = .ok [] ∧
    getVestedCoins acctA 200 = .ok [⟨"atom", 200⟩] ∧
    getVestedCoins acctA 200 ≠ .ok acctA.originalVesting ∧
    getVestingCoins acctA 200 = .error .negativeResult :=
  ⟨by decide, by decide, by decide, by decide, by decide⟩

/-! ## Claim C2 -/

/-- C2: conservation of `Q(d) = BC(d) + DV(d) + DF(d)` fails on a
multi-denom delegation. `TrackDelegation` reads the base balance once
before its loop and assigns `Coins = bc.Minus({coin})` on each
iteration, so the aaa-debit is overwritten by the bbb-iteration: after
delegating `{10 aaa, 10 bbb}` at `t = 50` on the two-denom sample
account, `Q(aaa)` grows from 50 to 60. -/
theorem C2_conservation_broken :
    (trackDelegation acctAB 50 [⟨"aaa", 10⟩, ⟨"bbb", 10⟩]).isOk = true ∧
    bucketTotal acctAB "aaa" = 50 ∧
    bucketTotal
      (afterCall (trackDelegation acctAB 50 [⟨"aaa", 10⟩, ⟨"bbb", 10⟩]))
      "aaa" = 60 ∧
    bucketTotal
      (afterCall (trackDelegation acctAB 50 [⟨"aaa", 10⟩, ⟨"bbb", 10⟩]))
      "aaa" ≠ bucketTotal acctAB "aaa" :=
  ⟨by decide, by decide, by decide, by decide⟩

/-! ## Claim C6 -/

/-- C6: the per-denom bound `DV(d) + DF(d) ≤ OV(d)` fails from the
initial state, through the same stale-balance assignment as C2: fully
delegating `{50 aaa, 50 bbb}` at `t = 100` leaves the 50 aaa debit
overwritten, so a second delegation of `{50 aaa}` is accepted and the
buckets for aaa reach 100 against an original vesting of 50. -/
theorem C6_delegation_bound_broken :
    (trackDelegation acctAB 100 [⟨"aaa", 50⟩, ⟨"bbb", 50⟩]).isOk = true ∧
    (trackDelegation
      (afterCall (trackDelegation acctAB 100 [⟨"aaa", 50⟩, ⟨"bbb", 50⟩]))
      100 [⟨"aaa", 50⟩]).isOk = true ∧
    amountOf (afterCall (trackDelegation
      (afterCall (trackDelegation acctAB 100 [⟨"aaa", 50⟩, ⟨"bbb", 50⟩]))
      100 [⟨"aaa", 50⟩])).delegatedVesting "aaa"
      + amountOf (afterCall (trackDelegation
      (afterCall (trackDelegation acctAB 100 [⟨"aaa", 50⟩, ⟨"bbb", 50⟩]))
      100 [⟨"aaa", 50⟩])).delegatedFree "aaa" = 100 ∧
    amountOf acctAB.originalVesting "aaa" = 50 ∧
    ¬(100 : ℤ) ≤ 50 :=
  ⟨by decide, by decide, by decide, by decide, by decide⟩

/-! ## Claim C1 -/

/-- C1 (amended): the source computes `min(BC(d) + DV(d) − V(d), BC(d))`
with no lower clamp, so the result can be negative; and the vesting
computation feeding it fails for `t` past the end time, so success is
only guaranteed up to `end_time` on a well-formed schedule. Under those
hypotheses `SpendableCoins` succeeds, reports exactly the unclamped
minimum for every base-balance denom (so never more than `BC(d)`),
reports nothing for other denoms, and strips zero amounts. -/
theorem C1_spendable_amended {cva : ContinuousVestingAccount} {t : ℤ}
    (hbc : CoinsValid cva.getCoins)
    (hov : CoinsValid cva.originalVesting)
    (hse : cva.startTime < cva.endTime) (ht : t ≤ cva.endTime) :
    ∃ sp v, getVestingCoins cva t = .ok v ∧
      spendableCoins cva t = .ok sp ∧
      (∀ c ∈ cva.getCoins, amountOf sp c.denom
        = min (c.amount + amountOf cva.delegatedVesting c.denom
            - amountOf v c.denom) c.amount) ∧
      (∀ c ∈ cva.getCoins,
        amountOf sp c.denom ≤ amountOf cva.getCoins c.denom) ∧
      (∀ d, (∀ c ∈ cva.getCoins, c.denom ≠ d) → amountOf sp d = 0) ∧
      (∀ x ∈ sp, x.amount ≠ 0) := by
  obtain ⟨v, hv, hvv, hva⟩ := getVestingCoins_spec hov hse ht
  obtain ⟨hs, hz, habs, hent⟩ :=
    @spendFold_spec
      (fun coin => min (coin.amount + amountOf cva.delegatedVesting coin.denom
        - amountOf v coin.denom) coin.amount)
      (fun sp coin =>
        let m := min (coin.amount + amountOf cva.delegatedVesting coin.denom
          - amountOf v coin.denom) coin.amount
        if m = 0 then sp else coinsPlus sp [⟨coin.denom, m⟩])
      rfl cva.getCoins hbc.1 [] coinsSorted_nil
      (fun x hx => absurd hx (List.not_mem_nil x))
  refine ⟨_, v, hv, ?_, fun c hc => ?_, fun c hc => ?_, fun d hd => ?_, hz⟩
  · unfold spendableCoins
    rw [hv]
  · rw [hent c hc, amountOf_nil, zero_add]
  · rw [hent c hc, amountOf_nil, zero_add, amountOf_entry hbc.1 hc]
    exact min_le_right _ _
  · rw [habs d hd, amountOf_nil]

/-- C1 counterexample: the claim as stated fails twice on reachable
accounts. Delegating 60 atom at the end time leaves
`BC = 40, DF = 60`; at `t = 50` the source returns `{-10 atom}`
(no `max(·, 0)` clamp), violating `0 ≤ spendable`. And at `t = 200`
`SpendableCoins` fails with `NegativeResult` (via the unclamped vested
amount), violating `never fails`. -/
theorem C1_counterexample :
    (trackDelegation acctA 100 [⟨"atom", 60⟩]).isOk = true ∧
    spendableCoins (afterCall (trackDelegation acctA 100 [⟨"atom", 60⟩])) 50
      = .ok [⟨"atom", -10⟩] ∧
    ¬(0 : ℤ) ≤ amountOf [(⟨"atom", -10⟩ : Coin)] "atom" ∧
    spendableCoins acctA 200 = .error .negativeResult :=
  ⟨by decide, by decide, by decide, by decide⟩

/-- C1 witness: the amended theorem applied to the sample account at
`t = 50`. -/
theorem C1_witness :
    CoinsValid acctA.getCoins ∧ CoinsValid acctA.originalVesting ∧
    acctA.startTime < acctA.endTime ∧ (50 : ℤ) ≤ acctA.endTime ∧
    (∃ sp v, getVestingCoins acctA 50 = .ok v ∧
      spendableCoins acctA 50 = .ok sp ∧
      (∀ c ∈ acctA.getCoins, amountOf sp c.denom
        = min (c.amount + amountOf acctA.delegatedVesting c.denom
            - amountOf v c.denom) c.amount) ∧
      (∀ c ∈ acctA.getCoins,
        amountOf sp c.denom ≤ amountOf acctA.getCoins c.denom) ∧
      (∀ d, (∀ c ∈ acctA.getCoins, c.denom ≠ d) → amountOf sp d = 0) ∧
      (∀ x ∈ sp, x.amount ≠ 0)) :=
  ⟨by decide, by decide, by decide, by decide,
    C1_spendable_amended (by decide) (by decide) (by decide) (by decide)⟩

/-! ## Claim C9 -/

/-- C9 (amended): for the spec-modelled delayed schedule, the vested
amount is `0` before `end_time` and the full original vesting from
`end_time` on. The spendable consequence only partially holds: before
`end_time` the §4.4 formula gives `min(max(BC(d) − OV(d), 0), BC(d))`
per denom — zero whenever `BC(d) ≤ OV(d)`, but positive when the
account holds more than its original vesting — and from `end_time` on
the full base balance is spendable. -/
theorem C9_delayed_amended {dva : DelayedVestingAccount} {t : ℤ}
    (hbc : CoinsValid dva.getCoins) :
    (delayedGetVestedCoins dva t
      = if t < dva.endTime then [] else dva.originalVesting) ∧
    (t < dva.endTime →
      ∀ c ∈ dva.getCoins, amountOf (delayedSpendableCoins dva t) c.denom
        = min (max (c.amount - amountOf dva.originalVesting c.denom) 0)
            c.amount) ∧
    (dva.endTime ≤ t →
      ∀ c ∈ dva.getCoins,
        amountOf (delayedSpendableCoins dva t) c.denom = c.amount) ∧
    (∀ d, (∀ c ∈ dva.getCoins, c.denom ≠ d) →
      amountOf (delayedSpendableCoins dva t) d = 0) := by
  obtain ⟨hs, hz, habs, hent⟩ :=
    @spendFold_spec
      (fun coin => min (max (coin.amount
        - amountOf (delayedGetVestingCoins dva t) coin.denom) 0) coin.amount)
      (fun sp coin =>
        let m := min (max (coin.amount
          - amountOf (delayedGetVestingCoins dva t) coin.denom) 0) coin.amount
        if m = 0 then sp else coinsPlus sp [⟨coin.denom, m⟩])
      rfl dva.getCoins hbc.1 [] coinsSorted_nil
      (fun x hx => absurd hx (List.not_mem_nil x))
  refine ⟨rfl, fun hlt c hc => ?_, fun hge c hc => ?_, fun d hd => ?_⟩
  · have hveq : delayedGetVestingCoins dva t = dva.originalVesting := by
      unfold delayedGetVestingCoins
      rw [if_pos hlt]
    unfold delayedSpendableCoins
    rw [hent c hc, amountOf_nil, zero_add, hveq]
  · have hveq : delayedGetVestingCoins dva t = [] := by
      unfold delayedGetVestingCoins
      rw [if_neg (not_lt.mpr hge)]
    unfold delayedSpendableCoins
    rw [hent c hc, amountOf_nil, zero_add, hveq, amountOf_nil, sub_zero,
      max_eq_left (le_of_lt (hbc.2 c hc)), min_self]
  · unfold delayedSpendableCoins
    rw [habs d hd, amountOf_nil]

/-- C9 counterexample: a delayed account holding 150 atom against an
original vesting of 100 atom has 50 atom spendable already at
`t = 50 < end_time = 100`, not the 0 the claim asserts. -/
theorem C9_counterexample :
    (50 : ℤ) < dvaEx.endTime ∧
    delayedSpendableCoins dvaEx 50 = [⟨"atom", 50⟩] ∧
    amountOf (delayedSpendableCoins dvaEx 50) "atom" ≠ 0 :=
  ⟨by decide, by decide, by decide⟩

/-- C9 witness: the amended theorem applied to the sample delayed
account. -/
theorem C9_witness :
    CoinsValid dvaEx.getCoins ∧
    ((delayedGetVestedCoins dvaEx 120
      = if (120 : ℤ) < dvaEx.endTime then [] else dvaEx.originalVesting) ∧
    ((120 : ℤ) < dvaEx.endTime →
      ∀ c ∈ dvaEx.getCoins, amountOf (delayedSpendableCoins dvaEx 120) c.denom
        = min (max (c.amount - amountOf dvaEx.originalVesting c.denom) 0)
            c.amount) ∧
    (dvaEx.endTime ≤ (120 : ℤ) →
      ∀ c ∈ dvaEx.getCoins,
        amountOf (delayedSpendableCoins dvaEx 120) c.denom = c.amount) ∧
    (∀ d, (∀ c ∈ dvaEx.getCoins, c.denom ≠ d) →
      amountOf (delayedSpendableCoins dvaEx 120) d = 0)) :=
  ⟨by decide, C9_delayed_amended (by decide)⟩

/-! ## Claim C10 -/

/-- C10: the three query operations have Go value receivers and their
bodies assign no field, so a call leaves the caller's account — every
field of it — unchanged; the embedding threads that receiver state
explicitly through the `...Call` wrappers. -/
theorem C10_queries_pure (cva : ContinuousVestingAccount) (t : ℤ) :
    (spendableCoinsCall cva t).2 = cva ∧
    (getVestedCoinsCall cva t).2 = cva ∧
    (getVestingCoinsCall cva t).2 = cva :=
  ⟨rfl, rfl, rfl⟩

/-! ## Singleton plus/minus helpers -/

theorem coinsValid_singleton {d : String} {x : ℤ} (hx : 0 < x) :
    CoinsValid [⟨d, x⟩] := by
  refine ⟨coinsSorted_singleton _, fun c hc => ?_⟩
  rcases List.mem_singleton.mp hc with rfl
  exact hx

theorem amountOf_coinsPlus_singleton {a : Coins} (ha : CoinsSorted a)
    (d : String) (x : ℤ) (e : String) :
    amountOf (coinsPlus a [⟨d, x⟩]) e
      = amountOf a e + (if d = e then x else 0) := by
  rw [amountOf_coinsPlus ha (coinsSorted_singleton _), amountOf_singleton]

theorem coinsMinus_singleton_ok {a : Coins} (ha : CoinsValid a)
    {d : String} {x : ℤ} (hx : x ≤ amountOf a d) :
    ∃ r, coinsMinus a [⟨d, x⟩] = .ok r ∧ CoinsValid r ∧
      ∀ e, amountOf r e = amountOf a e - (if d = e then x else 0) := by
  obtain ⟨r, hr, hrv, hra⟩ :=
    @coinsMinus_ok a [⟨d, x⟩] ha.1 (coinsSorted_singleton _)
      (fun e => by
        rw [amountOf_singleton]
        split_ifs with h
        · rw [h] at hx
          exact hx
        · exact ha.amountOf_nonneg e)
  refine ⟨r, hr, hrv, fun e => ?_⟩
  rw [hra e, amountOf_singleton]

theorem coinsMinus_singleton_err {a : Coins} (ha : CoinsSorted a)
    {d : String} {x : ℤ} (hx : amountOf a d < x) :
    coinsMinus a [⟨d, x⟩] = .error .negativeResult := by
  refine @coinsMinus_neg a [⟨d, x⟩] ha (coinsSorted_singleton _) d ?_
  rw [amountOf_singleton, if_pos rfl]
  exact hx

/-! ## delegStep lemmas -/

theorem delegX_bounds (v : Coins) (cva : ContinuousVestingAccount)
    {coin : Coin} (hamt : 0 ≤ coin.amount) :
    0 ≤ delegX v cva coin ∧ delegX v cva coin ≤ coin.amount := by
  unfold delegX
  constructor
  · exact le_min (le_max_right _ _) hamt
  · exact min_le_right _ _

theorem delegStep_cva1_dv {v : Coins} {cva : ContinuousVestingAccount}
    {coin : Coin} (hdv : CoinsSorted cva.delegatedVesting) (e : String) :
    amountOf (if delegX v cva coin = 0 then cva else
      cva.setDelegatedVesting (coinsPlus cva.delegatedVesting
        [⟨coin.denom, delegX v cva coin⟩])).delegatedVesting e
      = amountOf cva.delegatedVesting e
        + (if coin.denom = e then delegX v cva coin else 0) := by
  by_cases hx : delegX v cva coin = 0
  · rw [if_pos hx, hx]
    simp
  · rw [if_neg hx, delegatedVesting_setDelegatedVesting,
      amountOf_coinsPlus_singleton hdv]

theorem delegStep_eq_dv (v : Coins) (cva : ContinuousVestingAccount)
    (coin : Coin) :
    (delegStep v cva coin).delegatedVesting
      = (if delegX v cva coin = 0 then cva else
          cva.setDelegatedVesting (coinsPlus cva.delegatedVesting
            [⟨coin.denom, delegX v cva coin⟩])).delegatedVesting := by
  simp only [delegStep]
  split_ifs <;> rfl

theorem delegStep_dv {v : Coins} {cva : ContinuousVestingAccount}
    {coin : Coin} (hdv : CoinsSorted cva.delegatedVesting) (e : String) :
    amountOf (delegStep v cva coin).delegatedVesting e
      = amountOf cva.delegatedVesting e
        + (if coin.denom = e then delegX v cva coin else 0) := by
  rw [delegStep_eq_dv, delegStep_cva1_dv hdv]

theorem delegStep_cva1_df (v : Coins) (cva : ContinuousVestingAccount)
    (coin : Coin) :
    (if delegX v cva coin = 0 then cva else
      cva.setDelegatedVesting (coinsPlus cva.delegatedVesting
        [⟨coin.denom, delegX v cva coin⟩])).delegatedFree
      = cva.delegatedFree := by
  split_ifs <;> rfl

theorem delegStep_df {v : Coins} {cva : ContinuousVestingAccount}
    {coin : Coin} (hdf : CoinsSorted cva.delegatedFree) (e : String) :
    amountOf (delegStep v cva coin).delegatedFree e
      = amountOf cva.delegatedFree e
        + (if coin.denom = e then coin.amount - delegX v cva coin else 0) := by
  simp only [delegStep]
  by_cases hy : coin.amount - delegX v cva coin = 0
  · rw [if_pos hy, delegStep_cva1_df, hy]
    simp
  · rw [if_neg hy, delegatedFree_setDelegatedFree, delegStep_cva1_df,
      amountOf_coinsPlus_singleton hdf]

theorem delegStep_getCoins (v : Coins) (cva : ContinuousVestingAccount)
    (coin : Coin) : (delegStep v cva coin).getCoins = cva.getCoins := by
  simp only [delegStep]
  split_ifs <;> rfl

theorem delegStep_dv_valid {v : Coins} {cva : ContinuousVestingAccount}
    {coin : Coin} (h : CoinsValid cva.delegatedVesting)
    (hamt : 0 ≤ coin.amount) :
    CoinsValid (delegStep v cva coin).delegatedVesting := by
  rw [delegStep_eq_dv]
  split_ifs with hx
  · exact h
  · rw [delegatedVesting_setDelegatedVesting]
    refine coinsPlus_valid h (coinsValid_singleton ?_)
    rcases delegX_bounds v cva hamt with ⟨h0, _⟩
    omega

theorem delegStep_df_valid {v : Coins} {cva : ContinuousVestingAccount}
    {coin : Coin} (h : CoinsValid cva.delegatedFree)
    (hamt : 0 ≤ coin.amount) :
    CoinsValid (delegStep v cva coin).delegatedFree := by
  simp only [delegStep]
  split_ifs with hy hx hx
  · exact h
  · rw [delegatedFree_setDelegatedVesting]
    exact h
  · rw [delegatedFree_setDelegatedFree]
    refine coinsPlus_valid h (coinsValid_singleton ?_)
    rcases delegX_bounds v cva hamt with ⟨_, h1⟩
    omega
  · rw [delegatedFree_setDelegatedFree, delegatedFree_setDelegatedVesting]
    refine coinsPlus_valid h (coinsValid_singleton ?_)
    rcases delegX_bounds v cva hamt with ⟨_, h1⟩
    omega

/-! ## Loop unfolding equations -/

theorem trackDelegationLoop_nil (bc v : Coins)
    (cva : ContinuousVestingAccount) :
    trackDelegationLoop bc v cva [] = .ok cva := rfl

theorem trackDelegationLoop_cons (bc v : Coins)
    (cva : ContinuousVestingAccount) (coin : Coin) (rest : Coins) :
    trackDelegationLoop bc v cva (coin :: rest)
      = if coin.amount = 0 ∨ amountOf bc coin.denom < coin.amount then
          trackDelegationLoop bc v cva rest
        else
          match coinsMinus bc [coin] with
          | .error e => .error (e, delegStep v cva coin)
          | .ok bc2 =>
            trackDelegationLoop bc v ((delegStep v cva coin).setCoins bc2) rest := by
  rw [trackDelegationLoop]

theorem trackUndelegationLoop_nil (bc : Coins)
    (cva : ContinuousVestingAccount) :
    trackUndelegationLoop bc cva [] = .ok cva := rfl

theorem trackUndelegationLoop_cons (bc : Coins)
    (cva : ContinuousVestingAccount) (coin : Coin) (rest : Coins) :
    trackUndelegationLoop bc cva (coin :: rest)
      = if coin.amount = 0 then trackUndelegationLoop bc cva rest
        else
          match undelegStep cva coin with
          | .error e => .error e
          | .ok cva2 =>
            trackUndelegationLoop bc (cva2.setCoins (coinsPlus bc [coin])) rest := by
  rw [trackUndelegationLoop]

/-! ## undelegStep lemmas -/

theorem undelegX_bounds {cva : ContinuousVestingAccount} {coin : Coin}
    (hdf : CoinsValid cva.delegatedFree) (hamt : 0 ≤ coin.amount) :
    0 ≤ undelegX cva coin ∧
      undelegX cva coin ≤ amountOf cva.delegatedFree coin.denom ∧
      undelegX cva coin ≤ coin.amount := by
  unfold undelegX
  exact ⟨le_min (hdf.amountOf_nonneg _) hamt, min_le_left _ _, min_le_right _ _⟩

theorem undelegStep_stage1 {cva : ContinuousVestingAccount} {coin : Coin}
    (hdf : CoinsValid cva.delegatedFree) (hamt : 0 ≤ coin.amount) :
    ∃ cva1,
      (if undelegX cva coin = 0 then .ok cva else
        match coinsMinus cva.delegatedFree [⟨coin.denom, undelegX cva coin⟩] with
        | .error e => .error (e, cva)
        | .ok df => .ok (cva.setDelegatedFree df) :
        Except (ArithErr × ContinuousVestingAccount) ContinuousVestingAccount)
        = .ok cva1 ∧
      CoinsValid cva1.delegatedFree ∧
      cva1.delegatedVesting = cva.delegatedVesting ∧
      cva1.getCoins = cva.getCoins ∧
      ∀ e, amountOf cva1.delegatedFree e
        = amountOf cva.delegatedFree e
          - (if coin.denom = e then undelegX cva coin else 0) := by
  obtain ⟨h0, h1, h2⟩ := undelegX_bounds hdf hamt
  split_ifs with hx
  · refine ⟨cva, rfl, hdf, rfl, rfl, fun e => ?_⟩
    rw [hx]
    simp
  · obtain ⟨df, hdf2, hdfv, hdfa⟩ := coinsMinus_singleton_ok hdf h1
    rw [hdf2]
    exact ⟨cva.setDelegatedFree df, rfl, hdfv, rfl, rfl, hdfa⟩

theorem undelegStep_eq {cva : ContinuousVestingAccount} {coin : Coin}
    {cva1 : ContinuousVestingAccount}
    (h : (if undelegX cva coin = 0 then .ok cva else
      match coinsMinus cva.delegatedFree [⟨coin.denom, undelegX cva coin⟩] with
      | .error e => .error (e, cva)
      | .ok df => .ok (cva.setDelegatedFree df) :
      Except (ArithErr × ContinuousVestingAccount) ContinuousVestingAccount)
      = .ok cva1) :
    undelegStep cva coin
      = undelegStage2 coin cva1 (coin.amount - undelegX cva coin) := by
  unfold undelegStep
  rw [h]

theorem undelegStep_ok {cva : ContinuousVestingAccount} {coin : Coin}
    (hdf : CoinsValid cva.delegatedFree)
    (hdv : CoinsValid cva.delegatedVesting) (hpos : 0 < coin.amount)
    (hcov : coin.amount ≤ amountOf cva.delegatedVesting coin.denom
      + amountOf cva.delegatedFree coin.denom) :
    ∃ cva2, undelegStep cva coin = .ok cva2 ∧
      CoinsValid cva2.delegatedFree ∧ CoinsValid cva2.delegatedVesting ∧
      cva2.getCoins = cva.getCoins ∧
      (∀ e, amountOf cva2.delegatedFree e
        = amountOf cva.delegatedFree e
          - (if coin.denom = e then undelegX cva coin else 0)) ∧
      (∀ e, amountOf cva2.delegatedVesting e
        = amountOf cva.delegatedVesting e
          - (if coin.denom = e then coin.amount - undelegX cva coin else 0)) := by
  obtain ⟨h0, h1, h2⟩ := undelegX_bounds hdf (le_of_lt hpos)
  obtain ⟨cva1, hs1, hs1df, hs1dv, hs1c, hs1a⟩ :=
    undelegStep_stage1 hdf (le_of_lt hpos)
  rw [undelegStep_eq hs1]
  unfold undelegStage2
  by_cases hy : coin.amount - undelegX cva coin = 0
  · rw [if_pos hy]
    refine ⟨cva1, rfl, hs1df, by rw [hs1dv]; exact hdv, hs1c, hs1a,
      fun e => ?_⟩
    rw [hs1dv, hy]
    simp
  · rw [if_neg hy]
    have hyle : coin.amount - undelegX cva coin
        ≤ amountOf cva.delegatedVesting coin.denom := by
      have hc := min_choice (amountOf cva.delegatedFree coin.denom) coin.amount
      unfold undelegX at *
      rcases hc with hc | hc <;> omega
    have hdv1 : CoinsValid cva1.delegatedVesting := by
      rw [hs1dv]; exact hdv
    obtain ⟨dv2, hdv2, hdv2v, hdv2a⟩ :=
      @coinsMinus_singleton_ok cva1.delegatedVesting hdv1 coin.denom
        (coin.amount - undelegX cva coin) (by rw [hs1dv]; exact hyle)
    rw [hdv2]
    refine ⟨cva1.setDelegatedVesting dv2, rfl, ?_, ?_, ?_, ?_, fun e => ?_⟩
    · rw [delegatedFree_setDelegatedVesting]; exact hs1df
    · rw [delegatedVesting_setDelegatedVesting]; exact hdv2v
    · rw [getCoins_setDelegatedVesting]; exact hs1c
    · intro e
      rw [delegatedFree_setDelegatedVesting]; exact hs1a e
    · rw [delegatedVesting_setDelegatedVesting, hdv2a e, hs1dv]

theorem undelegStep_err {cva : ContinuousVestingAccount} {coin : Coin}
    (hdf : CoinsValid cva.delegatedFree)
    (hdv : CoinsValid cva.delegatedVesting) (hpos : 0 < coin.amount)
    (hviol : amountOf cva.delegatedVesting coin.denom
      < coin.amount - undelegX cva coin) :
    ∃ cva1, undelegStep cva coin = .error (.negativeResult, cva1) ∧
      cva1.delegatedVesting = cva.delegatedVesting ∧
      cva1.getCoins = cva.getCoins ∧
      ∀ e, amountOf cva1.delegatedFree e
        = amountOf cva.delegatedFree e
          - (if coin.denom = e then undelegX cva coin else 0) := by
  obtain ⟨cva1, hs1, hs1df, hs1dv, hs1c, hs1a⟩ :=
    undelegStep_stage1 hdf (le_of_lt hpos)
  rw [undelegStep_eq hs1]
  unfold undelegStage2
  have hy : ¬coin.amount - undelegX cva coin = 0 := by
    have := hdv.amountOf_nonneg coin.denom
    omega
  rw [if_neg hy]
  have herr : coinsMinus cva1.delegatedVesting
      [⟨coin.denom, coin.amount - undelegX cva coin⟩]
      = .error .negativeResult := by
    refine coinsMinus_singleton_err (by rw [hs1dv]; exact hdv.1) ?_
    rw [hs1dv]
    exact hviol
  rw [herr]
  exact ⟨cva1, rfl, hs1dv, hs1c, hs1a⟩

/-! ## Claim C5 -/

/-- C5 (amended with the success conditions of the vesting computation:
a well-formed schedule and `t ≤ end_time`; for `t` past the end time
the source's `GetVestingCoins` fails before the loop — C3's missing
clamp — so no field changes at all). For a single-denom delegation the
loop matches the claim exactly: skipped denoms leave the account
untouched, otherwise `delegated_vesting(d)` grows by
`X = min(max(V(d) − DV(d), 0), D)`, `delegated_free(d)` by `D − X`, the
base balance drops by `D`, and no other denom moves. -/
theorem C5_track_delegation_amended {cva : ContinuousVestingAccount}
    {t amt : ℤ} {d : String}
    (hbc : CoinsValid cva.getCoins) (hdv : CoinsSorted cva.delegatedVesting)
    (hdf : CoinsSorted cva.delegatedFree)
    (hov : CoinsValid cva.originalVesting)
    (hse : cva.startTime < cva.endTime) (ht : t ≤ cva.endTime) :
    (amt = 0 ∨ amountOf cva.getCoins d < amt →
      trackDelegation cva t [⟨d, amt⟩] = .ok cva) ∧
    (0 < amt → amt ≤ amountOf cva.getCoins d →
      ∃ v cva2, getVestingCoins cva t = .ok v ∧
        trackDelegation cva t [⟨d, amt⟩] = .ok cva2 ∧
        amountOf cva2.delegatedVesting d
          = amountOf cva.delegatedVesting d + delegX v cva ⟨d, amt⟩ ∧
        amountOf cva2.delegatedFree d
          = amountOf cva.delegatedFree d + (amt - delegX v cva ⟨d, amt⟩) ∧
        amountOf cva2.getCoins d = amountOf cva.getCoins d - amt ∧
        ∀ e, e ≠ d →
          amountOf cva2.delegatedVesting e = amountOf cva.delegatedVesting e ∧
          amountOf cva2.delegatedFree e = amountOf cva.delegatedFree e ∧
          amountOf cva2.getCoins e = amountOf cva.getCoins e) := by
  obtain ⟨v, hv, hvv, hva⟩ := getVestingCoins_spec hov hse ht
  have htd : trackDelegation cva t [⟨d, amt⟩]
      = trackDelegationLoop cva.getCoins v cva [⟨d, amt⟩] := by
    unfold trackDelegation
    rw [hv]
  constructor
  · intro h
    rw [htd, trackDelegationLoop_cons, if_pos h, trackDelegationLoop_nil]
  · intro hpos hle
    have hcond : ¬((⟨d, amt⟩ : Coin).amount = 0
        ∨ amountOf cva.getCoins (⟨d, amt⟩ : Coin).denom
          < (⟨d, amt⟩ : Coin).amount) := by
      show ¬(amt = 0 ∨ amountOf cva.getCoins d < amt)
      push_neg
      exact ⟨by omega, hle⟩
    obtain ⟨bc2, hbc2, hbc2v, hbc2a⟩ :=
      @coinsMinus_singleton_ok cva.getCoins hbc d amt hle
    refine ⟨v, (delegStep v cva ⟨d, amt⟩).setCoins bc2, hv, ?_, ?_, ?_, ?_,
      fun e hne => ⟨?_, ?_, ?_⟩⟩
    · rw [htd, trackDelegationLoop_cons, if_neg hcond, hbc2]
      rfl
    · rw [delegatedVesting_setCoins, delegStep_dv hdv, if_pos rfl]
    · rw [delegatedFree_setCoins, delegStep_df hdf, if_pos rfl]
    · rw [getCoins_setCoins, hbc2a d, if_pos rfl]
    · rw [delegatedVesting_setCoins, delegStep_dv hdv,
        if_neg fun hc => hne hc.symm, add_zero]
    · rw [delegatedFree_setCoins, delegStep_df hdf,
        if_neg fun hc => hne hc.symm, add_zero]
    · rw [getCoins_setCoins, hbc2a e,
        if_neg fun hc => hne hc.symm, sub_zero]

/-- C5 counterexample: the claim quantifies over every block time, but
at `t = 200` (past the end time 100) `TrackDelegation` fails with
`NegativeResult` before recording anything, so no post-state with the
claimed bucket increases exists, even though the denom is funded and
positive. -/
theorem C5_counterexample :
    (0 : ℤ) < 10 ∧ (10 : ℤ) ≤ amountOf acctA.getCoins "atom" ∧
    trackDelegation acctA 200 [⟨"atom", 10⟩]
      = .error (.negativeResult, acctA) ∧
    (trackDelegation acctA 200 [⟨"atom", 10⟩]).isOk = false :=
  ⟨by decide, by decide, by decide, by decide⟩

/-- C5 witness: the amended theorem applied to the sample account at
`t = 50` with a 40 atom delegation. -/
theorem C5_witness :
    CoinsValid acctA.getCoins ∧ CoinsSorted acctA.delegatedVesting ∧
    CoinsSorted acctA.delegatedFree ∧ CoinsValid acctA.originalVesting ∧
    acctA.startTime < acctA.endTime ∧ (50 : ℤ) ≤ acctA.endTime ∧
    (((40 : ℤ) = 0 ∨ amountOf acctA.getCoins "atom" < 40 →
      trackDelegation acctA 50 [⟨"atom", 40⟩] = .ok acctA) ∧
    ((0 : ℤ) < 40 → (40 : ℤ) ≤ amountOf acctA.getCoins "atom" →
      ∃ v cva2, getVestingCoins acctA 50 = .ok v ∧
        trackDelegation acctA 50 [⟨"atom", 40⟩] = .ok cva2 ∧
        amountOf cva2.delegatedVesting "atom"
          = amountOf acctA.delegatedVesting "atom"
            + delegX v acctA ⟨"atom", 40⟩ ∧
        amountOf cva2.delegatedFree "atom"
          = amountOf acctA.delegatedFree "atom"
            + (40 - delegX v acctA ⟨"atom", 40⟩) ∧
        amountOf cva2.getCoins "atom" = amountOf acctA.getCoins "atom" - 40 ∧
        ∀ e, e ≠ "atom" →
          amountOf cva2.delegatedVesting e
            = amountOf acctA.delegatedVesting e ∧
          amountOf cva2.delegatedFree e = amountOf acctA.delegatedFree e ∧
          amountOf cva2.getCoins e = amountOf acctA.getCoins e)) :=
  ⟨by decide, by decide, by decide, by decide, by decide, by decide,
    C5_track_delegation_amended (by decide) (by decide) (by decide)
      (by decide) (by decide) (by decide)⟩

/-! ## Claim C4 -/

/-- C4 (amended, restricted to single-denom undelegation amounts): on
an over-undelegation of a single denom the call does fail with
`NegativeResult`, and the base balance and `delegated_vesting` are
still untouched at the failure point — but `delegated_free` is not:
the source decreases it before the failing `delegated_vesting`
subtraction, so the carried receiver already lost
`min(delegated_free(d), R(d))` from the failing denom. The operation
is therefore not all-or-nothing even for one denom; with several
denoms, iterations before the failing one additionally leave their
own bucket and balance writes behind. -/
theorem C4_track_undelegation_amended {cva : ContinuousVestingAccount}
    {amt : ℤ} {d : String}
    (hdf : CoinsValid cva.delegatedFree)
    (hdv : CoinsValid cva.delegatedVesting) (hpos : 0 < amt)
    (hviol : amountOf cva.delegatedVesting d
      < amt - undelegX cva ⟨d, amt⟩) :
    ∃ p, trackUndelegation cva [⟨d, amt⟩] = .error (.negativeResult, p) ∧
      p.getCoins = cva.getCoins ∧
      p.delegatedVesting = cva.delegatedVesting ∧
      amountOf p.delegatedFree d
        = amountOf cva.delegatedFree d - undelegX cva ⟨d, amt⟩ ∧
      ∀ e, e ≠ d →
        amountOf p.delegatedFree e = amountOf cva.delegatedFree e := by
  obtain ⟨p, herr, hpdv, hpc, hpdf⟩ :=
    @undelegStep_err cva ⟨d, amt⟩ hdf hdv hpos hviol
  unfold trackUndelegation
  rw [trackUndelegationLoop_cons, if_neg (show ¬(amt = 0) by omega), herr]
  refine ⟨p, rfl, hpc, hpdv, ?_, fun e hne => ?_⟩
  · rw [hpdf d, if_pos rfl]
  · rw [hpdf e, if_neg fun hc => hne hc.symm, sub_zero]

/-- C4 counterexample: undelegating 10 atom from an account with
`delegated_free = 5, delegated_vesting = 3` fails with
`NegativeResult`, but the carried receiver has `delegated_free`
already emptied — not every field is as it was before the call. -/
theorem C4_counterexample :
    trackUndelegation acctDel [⟨"atom", 10⟩]
      = .error (.negativeResult, acctDel.setDelegatedFree []) ∧
    (acctDel.setDelegatedFree []).delegatedFree ≠ acctDel.delegatedFree :=
  ⟨by decide, by decide⟩

/-- C4 witness: the amended theorem applied to the sample account with
delegation buckets. -/
theorem C4_witness :
    CoinsValid acctDel.delegatedFree ∧ CoinsValid acctDel.delegatedVesting ∧
    (0 : ℤ) < 10 ∧
    amountOf acctDel.delegatedVesting "atom"
      < 10 - undelegX acctDel ⟨"atom", 10⟩ ∧
    (∃ p, trackUndelegation acctDel [⟨"atom", 10⟩]
        = .error (.negativeResult, p) ∧
      p.getCoins = acctDel.getCoins ∧
      p.delegatedVesting = acctDel.delegatedVesting ∧
      amountOf p.delegatedFree "atom"
        = amountOf acctDel.delegatedFree "atom"
          - undelegX acctDel ⟨"atom", 10⟩ ∧
      ∀ e, e ≠ "atom" →
        amountOf p.delegatedFree e = amountOf acctDel.delegatedFree e) :=
  ⟨by decide, by decide, by decide, by decide,
    C4_track_undelegation_amended (by decide) (by decide) (by decide)
      (by decide)⟩

/-! ## Full-loop characterizations for the round trip -/

theorem trackDelegationLoop_spec {bc v : Coins} (hbcv : CoinsValid bc) :
    ∀ {D : Coins}, CoinsSorted D → (∀ c ∈ D, 0 < c.amount) →
      (∀ c ∈ D, c.amount ≤ amountOf bc c.denom) →
    ∀ {cva : ContinuousVestingAccount},
      CoinsValid cva.delegatedVesting → CoinsValid cva.delegatedFree →
      ∃ cva2, trackDelegationLoop bc v cva D = .ok cva2 ∧
        CoinsValid cva2.delegatedVesting ∧ CoinsValid cva2.delegatedFree ∧
        (∀ d, amountOf cva2.delegatedVesting d + amountOf cva2.delegatedFree d
          = amountOf cva.delegatedVesting d + amountOf cva.delegatedFree d
            + amountOf D d) ∧
        (D = [] → cva2 = cva) ∧
        (D ≠ [] → CoinsValid cva2.getCoins ∧
          ∀ cl, D.getLast? = some cl →
            ∀ e, amountOf cva2.getCoins e
              = amountOf bc e - (if cl.denom = e then cl.amount else 0)) := by
  intro D
  induction D with
  | nil =>
    intro _ _ _ cva hdv hdf
    refine ⟨cva, trackDelegationLoop_nil bc v cva, hdv, hdf, fun d => ?_,
      fun _ => rfl, fun h => absurd rfl h⟩
    rw [amountOf_nil]
    omega
  | cons c cs ih =>
    intro hD hpos hcov cva hdv hdf
    have hc0 : 0 < c.amount := hpos c (List.mem_cons_self _ _)
    have hcle : c.amount ≤ amountOf bc c.denom :=
      hcov c (List.mem_cons_self _ _)
    have hcond : ¬(c.amount = 0 ∨ amountOf bc c.denom < c.amount) := by
      push_neg
      exact ⟨by omega, hcle⟩
    obtain ⟨bc2, hbc2, hbc2v, hbc2a⟩ :=
      @coinsMinus_singleton_ok bc hbcv c.denom c.amount hcle
    have hbc2e : coinsMinus bc [c] = .ok bc2 := hbc2
    have hdv' : CoinsValid ((delegStep v cva c).setCoins bc2).delegatedVesting := by
      rw [delegatedVesting_setCoins]
      exact delegStep_dv_valid hdv (le_of_lt hc0)
    have hdf' : CoinsValid ((delegStep v cva c).setCoins bc2).delegatedFree := by
      rw [delegatedFree_setCoins]
      exact delegStep_df_valid hdf (le_of_lt hc0)
    obtain ⟨cva2, h2eq, h2dv, h2df, h2sum, h2nil, h2ne⟩ :=
      ih hD.of_cons (fun x hx => hpos x (List.mem_cons_of_mem _ hx))
        (fun x hx => hcov x (List.mem_cons_of_mem _ hx)) hdv' hdf'
    refine ⟨cva2, ?_, h2dv, h2df, fun d => ?_, fun h => absurd h
      (List.cons_ne_nil c cs), fun _ => ?_⟩
    · rw [trackDelegationLoop_cons, if_neg hcond, hbc2e]
      exact h2eq
    · rw [h2sum d, delegatedVesting_setCoins, delegatedFree_setCoins,
        delegStep_dv hdv.1 d, delegStep_df hdf.1 d, amountOf_cons]
      by_cases hd : c.denom = d
      · have hz : amountOf cs d = 0 := by
          refine amountOf_eq_zero fun x hx => ?_
          rw [← hd]
          exact denomLt_ne_sym (List.rel_of_pairwise_cons hD hx)
        rw [hz, if_pos hd]
        simp only [if_pos hd]
        omega
      · rw [if_neg hd]
        simp only [if_neg hd]
        omega
    · by_cases hcs : cs = []
      · subst hcs
        have hc2 : cva2 = (delegStep v cva c).setCoins bc2 := h2nil rfl
        refine ⟨?_, fun cl hcl e => ?_⟩
        · rw [hc2, getCoins_setCoins]
          exact hbc2v
        · rw [List.getLast?_singleton] at hcl
          rcases Option.some.inj hcl with rfl
          rw [hc2, getCoins_setCoins]
          exact hbc2a e
      · obtain ⟨h2valid, h2amts⟩ := h2ne hcs
        refine ⟨h2valid, fun cl hcl e => ?_⟩
        refine h2amts cl ?_ e
        rcases cs with _ | ⟨c', cs'⟩
        · exact absurd rfl hcs
        · rw [List.getLast?_cons_cons] at hcl
          exact hcl

theorem trackUndelegationLoop_spec {bc : Coins} :
    ∀ {R : Coins}, CoinsSorted R → (∀ c ∈ R, 0 < c.amount) →
    ∀ {cva : ContinuousVestingAccount},
      CoinsValid cva.delegatedVesting → CoinsValid cva.delegatedFree →
      (∀ c ∈ R, c.amount ≤ amountOf cva.delegatedVesting c.denom
        + amountOf cva.delegatedFree c.denom) →
      ∃ cva2, trackUndelegationLoop bc cva R = .ok cva2 ∧
        CoinsValid cva2.delegatedVesting ∧ CoinsValid cva2.delegatedFree ∧
        (∀ d, amountOf cva2.delegatedVesting d + amountOf cva2.delegatedFree d
          = amountOf cva.delegatedVesting d + amountOf cva.delegatedFree d
            - amountOf R d) ∧
        (R = [] → cva2 = cva) ∧
        (R ≠ [] → ∀ cl, R.getLast? = some cl →
          cva2.getCoins = coinsPlus bc [cl]) := by
  intro R
  induction R with
  | nil =>
    intro _ _ cva hdv hdf _
    refine ⟨cva, trackUndelegationLoop_nil bc cva, hdv, hdf, fun d => ?_,
      fun _ => rfl, fun h => absurd rfl h⟩
    rw [amountOf_nil]
    omega
  | cons c cs ih =>
    intro hR hpos cva hdv hdf hcov
    have hc0 : 0 < c.amount := hpos c (List.mem_cons_self _ _)
    obtain ⟨cva1, h1eq, h1df, h1dv, h1c, h1dfa, h1dva⟩ :=
      undelegStep_ok hdf hdv hc0 (hcov c (List.mem_cons_self _ _))
    have hne : ∀ x ∈ cs, c.denom ≠ x.denom :=
      fun x hx => denomLt_ne (List.rel_of_pairwise_cons hR hx)
    have hdv' : CoinsValid (cva1.setCoins (coinsPlus bc [c])).delegatedVesting := by
      rw [delegatedVesting_setCoins]
      exact h1dv
    have hdf' : CoinsValid (cva1.setCoins (coinsPlus bc [c])).delegatedFree := by
      rw [delegatedFree_setCoins]
      exact h1df
    have hcov' : ∀ x ∈ cs, x.amount
        ≤ amountOf (cva1.setCoins (coinsPlus bc [c])).delegatedVesting x.denom
          + amountOf (cva1.setCoins (coinsPlus bc [c])).delegatedFree x.denom := by
      intro x hx
      rw [delegatedVesting_setCoins, delegatedFree_setCoins,
        h1dva x.denom, h1dfa x.denom, if_neg (hne x hx), if_neg (hne x hx)]
      have := hcov x (List.mem_cons_of_mem _ hx)
      omega
    obtain ⟨cva2, h2eq, h2dv, h2df, h2sum, h2nil, h2ne⟩ :=
      ih hR.of_cons (fun x hx => hpos x (List.mem_cons_of_mem _ hx))
        hdv' hdf' hcov'
    refine ⟨cva2, ?_, h2dv, h2df, fun d => ?_, fun h => absurd h
      (List.cons_ne_nil c cs), fun _ cl hcl => ?_⟩
    · rw [trackUndelegationLoop_cons, if_neg (show ¬(c.amount = 0) by omega),
        h1eq]
      exact h2eq
    · rw [h2sum d, delegatedVesting_setCoins, delegatedFree_setCoins,
        h1dva d, h1dfa d, amountOf_cons]
      by_cases hd : c.denom = d
      · have hz : amountOf cs d = 0 := by
          refine amountOf_eq_zero fun x hx => ?_
          rw [← hd]
          exact denomLt_ne_sym (List.rel_of_pairwise_cons hR hx)
        rw [hz, if_pos hd]
        simp only [if_pos hd]
        omega
      · rw [if_neg hd]
        simp only [if_neg hd]
        omega
    · by_cases hcs : cs = []
      · subst hcs
        have hc2 : cva2 = cva1.setCoins (coinsPlus bc [c]) := h2nil rfl
        rw [List.getLast?_singleton] at hcl
        rcases Option.some.inj hcl with rfl
        rw [hc2, getCoins_setCoins]
      · refine h2ne hcs cl ?_
        rcases cs with _ | ⟨c', cs'⟩
        · exact absurd rfl hcs
        · rw [List.getLast?_cons_cons] at hcl
          exact hcl

/-! ## Claim C8 -/

/-- C8: a delegation at any block time followed by an undelegation of
the same amount restores the base balance exactly and restores each
denom's `delegated_vesting + delegated_free` sum, for every account in
normal form and every delegation fully covered by the base balance. If
the vesting computation fails (degenerate schedule or `t` past the end
time), the delegation panics before mutating anything and the state is
trivially restored. -/
theorem C8_round_trip {cva : ContinuousVestingAccount} {t : ℤ} {D : Coins}
    (hbc : CoinsValid cva.getCoins)
    (hdv : CoinsValid cva.delegatedVesting)
    (hdf : CoinsValid cva.delegatedFree)
    (hD : CoinsValid D)
    (hcov : ∀ c ∈ D, c.amount ≤ amountOf cva.getCoins c.denom) :
    (delegateThenUndelegate cva t D).getCoins = cva.getCoins ∧
    ∀ d, amountOf (delegateThenUndelegate cva t D).delegatedVesting d
        + amountOf (delegateThenUndelegate cva t D).delegatedFree d
      = amountOf cva.delegatedVesting d + amountOf cva.delegatedFree d := by
  unfold delegateThenUndelegate
  cases hgv : getVestingCoins cva t with
  | error e =>
    have htd : trackDelegation cva t D = .error (e, cva) := by
      unfold trackDelegation
      rw [hgv]
    rw [htd]
    exact ⟨rfl, fun d => rfl⟩
  | ok v =>
    have htd : trackDelegation cva t D
        = trackDelegationLoop cva.getCoins v cva D := by
      unfold trackDelegation
      rw [hgv]
    obtain ⟨a1, h1eq, h1dv, h1df, h1sum, h1nil, h1ne⟩ :=
      @trackDelegationLoop_spec cva.getCoins v hbc D hD.1 hD.2 hcov cva hdv hdf
    have hcov2 : ∀ c ∈ D, c.amount ≤ amountOf a1.delegatedVesting c.denom
        + amountOf a1.delegatedFree c.denom := by
      intro c hc
      rw [h1sum c.denom, amountOf_entry hD.1 hc]
      have := hdv.amountOf_nonneg c.denom
      have := hdf.amountOf_nonneg c.denom
      omega
    obtain ⟨a2, h2eq, h2dv, h2df, h2sum, h2nil, h2ne⟩ :=
      @trackUndelegationLoop_spec a1.getCoins D hD.1 hD.2 a1 h1dv h1df hcov2
    have hg1 : a2.getCoins = cva.getCoins := by
      by_cases hDnil : D = []
      · rw [h2nil hDnil, h1nil hDnil]
      · obtain ⟨cl, hcl⟩ : ∃ cl, D.getLast? = some cl := by
          rcases D with _ | ⟨c0, Dtl⟩
          · exact absurd rfl hDnil
          · exact ⟨(c0 :: Dtl).getLast (List.cons_ne_nil c0 Dtl),
              List.getLast?_eq_getLast _ _⟩
        obtain ⟨h1valid, h1amts⟩ := h1ne hDnil
        have h2coins := h2ne hDnil cl hcl
        refine coins_ext (by rw [h2coins]; exact coinsPlus_sorted _ _)
          hbc.1 (by rw [h2coins]; exact coinsPlus_nonzero _ _)
          (fun x hx => ne_of_gt (hbc.2 x hx)) (fun d => ?_)
        rw [h2coins, amountOf_coinsPlus_singleton h1valid.1 _ _ d,
          h1amts cl hcl d]
        omega
    have hg2 : ∀ d, amountOf a2.delegatedVesting d
        + amountOf a2.delegatedFree d
        = amountOf cva.delegatedVesting d + amountOf cva.delegatedFree d := by
      intro d
      rw [h2sum d, h1sum d]
      omega
    rw [htd, h1eq]
    show (afterCall (trackUndelegation a1 D)).getCoins = cva.getCoins ∧
      ∀ d, amountOf (afterCall (trackUndelegation a1 D)).delegatedVesting d
        + amountOf (afterCall (trackUndelegation a1 D)).delegatedFree d
      = amountOf cva.delegatedVesting d + amountOf cva.delegatedFree d
    have htu : trackUndelegation a1 D
        = trackUndelegationLoop a1.getCoins a1 D := rfl
    rw [htu, h2eq]
    exact ⟨hg1, hg2⟩

/-- C8 witness: the round-trip theorem applied to the sample account
with a 30 atom delegation at `t = 50`. -/
theorem C8_witness :
    CoinsValid acctA.getCoins ∧ CoinsValid acctA.delegatedVesting ∧
    CoinsValid acctA.delegatedFree ∧ CoinsValid [(⟨"atom", 30⟩ : Coin)] ∧
    (∀ c ∈ [(⟨"atom", 30⟩ : Coin)],
      c.amount ≤ amountOf acctA.getCoins c.denom) ∧
    ((delegateThenUndelegate acctA 50 [⟨"atom", 30⟩]).getCoins
        = acctA.getCoins ∧
      ∀ d, amountOf
          (delegateThenUndelegate acctA 50 [⟨"atom", 30⟩]).delegatedVesting d
        + amountOf
          (delegateThenUndelegate acctA 50 [⟨"atom", 30⟩]).delegatedFree d
        = amountOf acctA.delegatedVesting d
          + amountOf acctA.delegatedFree d) :=
  ⟨by decide, by decide, by decide, by decide, by decide,
    C8_round_trip (by decide) (by decide) (by decide) (by decide)
      (by decide)⟩

end Vesting
